import Mathlib

/-!
# Verification of the NEAT-2 compartment-tree fitting engine

Shallow embedding of `src/neat/trees/compartmenttree.py`.

A `CompartmentTree` is modelled as a list of `CNode` records in the tree's
canonical iteration order (the order in which `for node in self` visits the
nodes).  Each node carries its `index`, the index of its parent node
(`none` at the root), and the three scalar parameters `ca`, `g_c`, `g_l`.
numpy arrays indexed by `[i, j]` are modelled as total functions
`Nat → Nat → F`; the in-place `+=` updates of the Python code become
`addEntry`, and each matrix-building method becomes the corresponding
left fold over the node list.  Machine floats are modelled as elements of
an arbitrary commutative ring / field `F` (exact arithmetic).
-/

/-- A compartment node: `index`, parent's index (`none` at the root), and the
three parameters capacitance `ca`, coupling conductance `g_c`, leak
conductance `g_l`, exactly the attributes of `CompartmentNode`. -/
structure CNode (F : Type*) where
  index : Nat
  parent : Option Nat
  ca : F
  g_c : F
  g_l : F

variable {F R C : Type*}

/-- `addEntry m i j v` models the numpy statement `m[i, j] += v`. -/
def addEntry [AddCommMonoid F] (m : Nat → Nat → F) (i j : Nat) (v : F) :
    Nat → Nat → F :=
  fun a b => m a b + if a = i ∧ b = j then v else 0

/-- One iteration of the loop body of `calcConductanceMatrix`. -/
def gStep [CommRing F] (m : Nat → Nat → F) (node : CNode F) : Nat → Nat → F :=
  let m1 := addEntry m node.index node.index (node.g_l + node.g_c)
  match node.parent with
  | none => m1
  | some jj =>
      let m2 := addEntry m1 jj jj node.g_c
      let m3 := addEntry m2 node.index jj (-node.g_c)
      addEntry m3 jj node.index (-node.g_c)

/-- Embedding of `CompartmentTree.calcConductanceMatrix`: start from the zero
matrix and run the loop body over every node in iteration order. -/
def calcConductanceMatrix [CommRing F] (t : List (CNode F)) : Nat → Nat → F :=
  t.foldl gStep (fun _ _ => 0)

/-- The total contribution of a single node to entry `(a, b)` of the
conductance matrix, read off from the loop body of `calcConductanceMatrix`:
`g_l + g_c` at `(i, i)` and, when the node has a parent `j`, additionally
`g_c` at `(j, j)` and `-g_c` at `(i, j)` and `(j, i)`. -/
def gContrib [CommRing F] (node : CNode F) (a b : Nat) : F :=
  (if a = node.index ∧ b = node.index then node.g_l + node.g_c else 0) +
  match node.parent with
  | none => 0
  | some jj =>
      (if a = jj ∧ b = jj then node.g_c else 0)
      + (if a = node.index ∧ b = jj then -node.g_c else 0)
      + (if a = jj ∧ b = node.index then -node.g_c else 0)

/-!
## System matrix (`calcSystemMatrix`)

With `freqs=None` the source returns the (real) conductance matrix; with a
frequency array it first casts the conductance matrix to the complex dtype
(`astype(complex)`, modelled by a ring hom `phi : R →+* C`), broadcasts it
over the frequency axis, and then adds `freqs * node.ca` to the diagonal
entry of every node.
-/

/-- One iteration of the diagonal-capacitance loop of `calcSystemMatrix`,
at a fixed frequency `f`: `gc_mat[:, i, i] += freqs * node.ca`. -/
def sysStep [CommRing R] [CommRing C] (phi : R →+* C) (f : C) (m : Nat → Nat → C)
    (node : CNode R) : Nat → Nat → C :=
  addEntry m node.index node.index (f * phi node.ca)

/-- The frequency-`f` slice of the system matrix: the complex-cast
conductance matrix plus the capacitive diagonal terms. -/
def systemSlice [CommRing R] [CommRing C] (phi : R →+* C)
    (t : List (CNode R)) (f : C) : Nat → Nat → C :=
  t.foldl (sysStep phi f) (fun a b => phi (calcConductanceMatrix t a b))

/-- Embedding of `calcSystemMatrix` in the `freqs is not None` branch:
one matrix slice per frequency, in order. -/
def calcSystemMatrix [CommRing R] [CommRing C] (phi : R →+* C)
    (t : List (CNode R)) (freqs : List C) : List (Nat → Nat → C) :=
  freqs.map (systemSlice phi t)

/-- Embedding of `calcSystemMatrix` in the `freqs is None` branch: the
conductance matrix itself, as the source's early `if` returns it. -/
def calcSystemMatrixNone [CommRing R] (t : List (CNode R)) : Nat → Nat → R :=
  calcConductanceMatrix t

/-!
## Canonical iteration order

The generic tree container (`STree`, not part of the extracted sources)
iterates depth-first from the root.  `Modelled from the spec:` the spec's
data-model section fixes, as an invariant of `CompartmentTree`, that node
`index` equals the node's position in this canonical order, that the single
root (the one node with no parent) sits at position `0`, and that a parent
is visited before its children.  `canonical` captures exactly this.
-/

/-- Admissible parent entry for the node at position `i` of the canonical
order: the root (and only the root) is at position `0`, and every other
node's parent appears strictly earlier. -/
def parentOk (i : Nat) : Option Nat → Prop
  | none => i = 0
  | some j => 0 < i ∧ j < i

instance (i : Nat) : (o : Option Nat) → Decidable (parentOk i o)
  | none => inferInstanceAs (Decidable (i = 0))
  | some j => inferInstanceAs (Decidable (0 < i ∧ j < i))

/-- The tree is nonempty, each node's `index` equals its iteration position,
and parents precede children (root at position `0`). -/
def canonical (t : List (CNode F)) : Prop :=
  0 < t.length ∧ ∀ i (h : i < t.length),
    (t.get ⟨i, h⟩).index = i ∧ parentOk i (t.get ⟨i, h⟩).parent

instance (t : List (CNode F)) : Decidable (canonical t) :=
  inferInstanceAs (Decidable (_ ∧ _))

/-- Two trees have the same topology when their node lists agree on `index`
and `parent` pointwise (parameters may differ). -/
def sameTopology (t₁ : List (CNode F)) (t₂ : List (CNode R)) : Prop :=
  t₁.map (fun node => (node.index, node.parent))
    = t₂.map (fun node => (node.index, node.parent))

instance (t₁ : List (CNode F)) (t₂ : List (CNode R)) :
    Decidable (sameTopology t₁ t₂) :=
  inferInstanceAs (Decidable (_ = _))

/-!
## Parameter vector and write-back (`_toVecG`, `_toTreeG`, `_toTreeC`)
-/

/-- Embedding of `_toVecG`: the flat conductance-parameter list, one entry
(`g_l`) for the root and two (`g_c`, `g_l`) for every other node, in
iteration order. -/
def toVecG (t : List (CNode F)) : List F :=
  t.foldl
    (fun l node =>
      match node.parent with
      | none => l ++ [node.g_l]
      | some _ => l ++ [node.g_c, node.g_l])
    []

/-- Embedding of `_toTreeG`: write a fitted conductance vector back onto the
nodes; the enumeration position `ii` selects slot `ii` for a root and slots
`2*ii-1`, `2*ii` otherwise. -/
def toTreeG (t : List (CNode F)) (g : Nat → F) : List (CNode F) :=
  t.enum.map
    (fun p =>
      match p.2.parent with
      | none => { p.2 with g_l := g p.1 }
      | some _ => { p.2 with g_c := g (2 * p.1 - 1), g_l := g (2 * p.1) })

/-- Embedding of `_toTreeC`: write a fitted capacitance vector back onto the
nodes by enumeration position. -/
def toTreeC (t : List (CNode F)) (c : Nat → F) : List (CNode F) :=
  t.enum.map (fun p => { p.2 with ca := c p.1 })

/-!
## Structure tensors (`_toStructureTensorG`, `_toStructureTensorC`)
-/

/-- One iteration of the loop of `_toStructureTensorG`; for a non-root node
of index `i` with parent `j` the coupling slot is `k = 2*i - 1` and the leak
slot `k + 1 = 2*i`; the root writes slot `0` at entry `(0,0)`.  (Python's
`2*i - 1` is `-1` for a hypothetical non-root node of index `0`; such trees
are outside every canonical tree considered here, and `Nat` subtraction
truncates instead.) -/
def gStructStep [CommRing F] (m : Nat → Nat → Nat → F) (node : CNode F) :
    Nat → Nat → Nat → F :=
  match node.parent with
  | none => fun a b k => m a b k + if a = 0 ∧ b = 0 ∧ k = 0 then 1 else 0
  | some jj =>
      fun a b k => m a b k +
        ((if a = node.index ∧ b = jj ∧ k = 2 * node.index - 1 then -1 else 0)
        + (if a = jj ∧ b = node.index ∧ k = 2 * node.index - 1 then -1 else 0)
        + (if a = jj ∧ b = jj ∧ k = 2 * node.index - 1 then 1 else 0)
        + (if a = node.index ∧ b = node.index ∧ k = 2 * node.index - 1 then 1
           else 0)
        + (if a = node.index ∧ b = node.index ∧ k = 2 * node.index then 1
           else 0))

/-- The contribution of one node to entry `(a, b, k)` of the conductance
structure tensor. -/

def gStructContrib [CommRing F] (node : CNode F) (a b k : Nat) : F :=
  match node.parent with
  | none => if a = 0 ∧ b = 0 ∧ k = 0 then 1 else 0
  | some jj =>
      (if a = node.index ∧ b = jj ∧ k = 2 * node.index - 1 then -1 else 0)
      + (if a = jj ∧ b = node.index ∧ k = 2 * node.index - 1 then -1 else 0)
      + (if a = jj ∧ b = jj ∧ k = 2 * node.index - 1 then 1 else 0)
      + (if a = node.index ∧ b = node.index ∧ k = 2 * node.index - 1 then 1
         else 0)
      + (if a = node.index ∧ b = node.index ∧ k = 2 * node.index then 1
         else 0)

/-- Embedding of `_toStructureTensorG` (the tensor as a 3-index function;
its third axis has length `(toVecG t).length` in the source). -/
def toStructureTensorG [CommRing F] (t : List (CNode F)) :
    Nat → Nat → Nat → F :=
  t.foldl gStructStep (fun _ _ _ => 0)

/-- One iteration of the loop of `_toStructureTensorC` at frequency position
`o`: `c_struct[:, i, i, i] += freqs`. -/
def cStructStep [CommRing C] (freqs : List C)
    (m : Nat → Nat → Nat → Nat → C) (node : CNode R) :
    Nat → Nat → Nat → Nat → C :=
  fun o a b l => m o a b l +
    if a = node.index ∧ b = node.index ∧ l = node.index then freqs.getD o 0
    else 0

/-- Embedding of `_toStructureTensorC`: a 4-index tensor over
(frequency, row, column, capacitance slot). -/
def toStructureTensorC [CommRing C] (t : List (CNode R)) (freqs : List C) :
    Nat → Nat → Nat → Nat → C :=
  t.foldl (cStructStep freqs) (fun _ _ _ _ => 0)

/-!
## Linear-algebra layer: matrix view, inverse, least squares

`toMat n` restricts a `Nat`-indexed matrix function to the `n × n` array the
source actually allocates.  `npInv` models `np.linalg.inv`, which raises
`LinAlgError` exactly on singular input (modelled by `Option.none`).
`lstsq` models `scipy.linalg.lstsq`.  Modelled from the spec: the spec only
requires of the solver that it return the least-squares solution (minimum
norm on rank deficiency); here it is realised through the normal equations,
which agrees with `scipy.linalg.lstsq` in exact arithmetic whenever the
feature matrix has full column rank — the only regime any claim below
exercises. -/

/-- The `n × n` matrix slice of a `Nat`-indexed matrix function. -/
def toMat (n : Nat) (m : Nat → Nat → F) : Matrix (Fin n) (Fin n) F :=
  Matrix.of fun i j => m i.val j.val

/-- Total inverse candidate: `det⁻¹ • adjugate` (the zero matrix on singular
input, the genuine inverse otherwise). -/
def matInvEx {n' : Type*} [Fintype n'] [DecidableEq n'] [Field F]
    (A : Matrix n' n' F) : Matrix n' n' F :=
  A.det⁻¹ • A.adjugate

/-- Model of `np.linalg.inv`: fails (raises `LinAlgError`, modelled as
`none`) precisely on a singular matrix, otherwise returns the inverse. -/
def npInv {n' : Type*} [Fintype n'] [DecidableEq n'] [Field F]
    [DecidableEq F] (A : Matrix n' n' F) : Option (Matrix n' n' F) :=
  if A.det = 0 then none else some (matInvEx A)

/-- Model of `scipy.linalg.lstsq` via the normal equations
`x = (Aᴴ A)⁻¹ Aᴴ b`. -/
def lstsq {m' p' : Type*} [Fintype m'] [Fintype p'] [DecidableEq p']
    [Field F] [StarRing F] (A : Matrix m' p' F) (b : m' → F) : p' → F :=
  (matInvEx (A.conjTranspose * A)).mulVec (A.conjTranspose.mulVec b)

/-!
## Impedance matrix (`calcImpedanceMatrix`)
-/

/-- Sequentially map a fallible function over a list, failing (like a
raised exception) as soon as one element fails. -/
def optionMapList {α β : Type*} (f : α → Option β) : List α → Option (List β)
  | [] => some []
  | x :: xs =>
      match f x, optionMapList f xs with
      | some y, some ys => some (y :: ys)
      | _, _ => none

/-- Embedding of `calcImpedanceMatrix` with `freqs=None`:
`np.linalg.inv(calcSystemMatrix())` on the steady-state matrix. -/
def calcImpedanceMatrixNone [Field R] [DecidableEq R] (t : List (CNode R)) :
    Option (Matrix (Fin t.length) (Fin t.length) R) :=
  npInv (toMat t.length (calcSystemMatrixNone t))

/-- Embedding of `calcImpedanceMatrix` with a frequency array:
`np.linalg.inv` inverts each frequency slice and raises on the first
singular one, which `Option.none` propagates. -/
def calcImpedanceMatrix [CommRing R] [Field C] [DecidableEq C]
    (phi : R →+* C) (t : List (CNode R)) (freqs : List C) :
    Option (List (Matrix (Fin t.length) (Fin t.length) C)) :=
  optionMapList (fun s => npInv (toMat t.length s))
    (calcSystemMatrix phi t freqs)

/-!
## Conductance fit (`computeG`)
-/

/-- Feature matrix of `computeG`: `einsum('ij,jkl->ikl', z_mat, g_struct)`,
with the first two axes flattened row-major into the row index `(i, k)` and
the parameter axis as column index. -/
def featureG [Field F] (t : List (CNode F))
    (z : Matrix (Fin t.length) (Fin t.length) F) :
    Matrix (Fin t.length × Fin t.length) (Fin (toVecG t).length) F :=
  Matrix.of fun ik l =>
    ∑ j : Fin t.length, z ik.1 j * toStructureTensorG t j.val ik.2.val l.val

/-- Target of `computeG`: `np.eye(n)` flattened row-major. -/
def targetIdVec (n : Nat) [Zero F] [One F] : (Fin n × Fin n) → F :=
  fun ik => if ik.1 = ik.2 then 1 else 0

/-- Embedding of `computeG`: build the structure tensor, contract it with
the target impedance matrix, solve least squares against the flattened
identity, and write the solution back onto the nodes. -/
def computeG [Field F] [StarRing F] (t : List (CNode F))
    (z : Matrix (Fin t.length) (Fin t.length) F) : List (CNode F) :=
  toTreeG t
    (fun k => if h : k < (toVecG t).length
      then lstsq (featureG t z) (targetIdVec t.length) ⟨k, h⟩ else 0)

/-!
## Capacitance fit (`computeC`)
-/

/-- Feature matrix of `computeC`: `einsum('oij,ojkl->oikl', zf_mat,
c_struct)`, flattened row-major over `(frequency, row, column)` with the
capacitance slot as column index (the capacitance parameter vector has one
slot per node). -/
def featureC [CommRing C] (t : List (CNode R)) (freqs : List C)
    (zf : Fin freqs.length → Matrix (Fin t.length) (Fin t.length) C) :
    Matrix (Fin freqs.length × Fin t.length × Fin t.length) (Fin t.length)
      C :=
  Matrix.of fun fik l =>
    ∑ j : Fin t.length,
      zf fik.1 fik.2.1 j
        * toStructureTensorC t freqs fik.1.val j.val fik.2.2.val l.val

/-- Target of `computeC`: `np.eye(n) - einsum('oij,jk->oik', zf_mat, g_mat)`
flattened row-major, where `g_mat` is the conductance matrix of the current
(already conductance-fitted) tree, cast to the complex dtype. -/
def targetC [CommRing R] [CommRing C] (phi : R →+* C) (t : List (CNode R))
    (freqs : List C)
    (zf : Fin freqs.length → Matrix (Fin t.length) (Fin t.length) C) :
    (Fin freqs.length × Fin t.length × Fin t.length) → C :=
  fun fik =>
    (if fik.2.1 = fik.2.2 then 1 else 0)
      - ∑ j : Fin t.length,
          zf fik.1 fik.2.1 j
            * phi (calcConductanceMatrix t j.val fik.2.2.val)

/-- Embedding of `computeC`: build the capacitance structure tensor and
feature matrix, solve least squares against `I - Zf·G`, keep the real part
of the solution (`res[0].real`, modelled by `re`), and write it back onto
the nodes. -/
def computeC [CommRing R] [Field C] [StarRing C] (phi : R →+* C)
    (re : C → R) (t : List (CNode R)) (freqs : List C)
    (zf : Fin freqs.length → Matrix (Fin t.length) (Fin t.length) C) :
    List (CNode R) :=
  toTreeC t
    (fun i => if h : i < t.length
      then re (lstsq (featureC t freqs zf) (targetC phi t freqs zf) ⟨i, h⟩)
      else 0)

/-!
## Combined fit (`computeGC`)
-/

/-- The Python error kinds relevant to `computeGC`. -/
inductive PyErr
  | nameError
  | valueError
  | indexError
deriving DecidableEq

/-- Model of `np.where(cond)[0]` on a 1-d condition: the (sorted) list of
indices where the condition holds.  It never raises. -/
def whereIdx {α : Type*} (p : α → Bool) (xs : List α) : List Nat :=
  (xs.enum.filter (fun q => p q.2)).map (fun q => q.1)

/-- Model of numpy fancy indexing `zf_mat[ind0, :, :]` along the leading
axis: `IndexError` (modelled as `none`) iff some index is out of range;
an empty index list yields an empty (0, n, n) selection, not an error. -/
def fancyIndex {α : Type*} (zf : List α) (inds : List Nat) :
    Option (List α) :=
  optionMapList (fun i => zf.get? i) inds

/-- Embedding of `computeGC`.  The first statement of its body is
`if 'z_mat' in kwargs:`, but no name `kwargs` is bound in the function (the
signature declares `z_mat=None` instead), so every call raises `NameError`
before any other statement runs. -/
def computeGC [CommRing R] (t : List (CNode R)) (freqs : List C)
    (zf : List (Matrix (Fin t.length) (Fin t.length) C)) :
    Except PyErr (List (CNode R)) :=
  Except.error PyErr.nameError

/-!
## Claim C2: entry-wise contract of `calcConductanceMatrix`
-/

/-- The entries touched by one node's iteration of the
`calcConductanceMatrix` loop, per the claim: `(i,i)` always and, when a
parent `j` exists, also `(j,j)`, `(i,j)`, `(j,i)`. -/
def touches (node : CNode F) (a b : Nat) : Prop :=
  (a = node.index ∧ b = node.index) ∨
  match node.parent with
  | none => False
  | some jj =>
      (a = jj ∧ b = jj) ∨ (a = node.index ∧ b = jj)
        ∨ (a = jj ∧ b = node.index)

instance (node : CNode F) (a b : Nat) : Decidable (touches node a b) := by
  unfold touches
  cases node.parent <;> infer_instance

/-- A concrete two-node chain over `ℚ`. -/
def qTree2Q : List (CNode ℚ) :=
  [⟨0, none, 1, 0, 3⟩, ⟨1, some 0, 1, 2, 3⟩]

/-- A concrete two-node chain over `ℤ`, used by several witnesses. -/
def qTree2 : List (CNode ℤ) :=
  [⟨0, none, 1, 0, 3⟩, ⟨1, some 0, 1, 2, 3⟩]

/-!
## The parameter vector on canonical trees
-/

/-- The per-node block of `_toVecG`. -/
def nodeParams (node : CNode F) : List F :=
  match node.parent with
  | none => [node.g_l]
  | some _ => [node.g_c, node.g_l]

/-- A concrete three-node branch (root with two children) over `ℤ`. -/
def qTree3 : List (CNode ℤ) :=
  [⟨0, none, 1, 0, 3⟩, ⟨1, some 0, 1, 2, 3⟩, ⟨2, some 0, 1, 4, 6⟩]

/-!
## Claim C7: `computeC` against its least-squares specification
-/

/-- The capacitance structure tensor as the claim states it:
`S[f, i, i, i] = freqs[f]` for every node index `i` (indices are exactly
`0 .. n-1` on canonical trees), zero elsewhere. -/
def capTensorSpec [CommRing C] (n : Nat) (freqs : List C) :
    Nat → Nat → Nat → Nat → C :=
  fun o j k l => if j = k ∧ k = l ∧ j < n then freqs.getD o 0 else 0

/-- The claim's feature matrix `feature[f,i,k,l] = Σ_j zf[f,i,j]·S[f,j,k,l]`
flattened over `(frequency, row, column)`. -/
def featureCSpec [CommRing C] (t : List (CNode R)) (freqs : List C)
    (zf : Fin freqs.length → Matrix (Fin t.length) (Fin t.length) C) :
    Matrix (Fin freqs.length × Fin t.length × Fin t.length) (Fin t.length)
      C :=
  Matrix.of fun fik l =>
    ∑ j : Fin t.length,
      zf fik.1 fik.2.1 j
        * capTensorSpec t.length freqs fik.1.val j.val fik.2.2.val l.val

/-- The claim's description of `computeC`: solve the least-squares problem
with the specified feature matrix against the target `I - Zf·G`, then write
only the real part of the solution into each node's `ca` by node index. -/
def computeCSpec [CommRing R] [Field C] [StarRing C] (phi : R →+* C)
    (re : C → R) (t : List (CNode R)) (freqs : List C)
    (zf : Fin freqs.length → Matrix (Fin t.length) (Fin t.length) C) :
    List (CNode R) :=
  t.map (fun node =>
    { node with
        ca := if h : node.index < t.length
          then re (lstsq (featureCSpec t freqs zf) (targetC phi t freqs zf)
            ⟨node.index, h⟩)
          else node.ca })

/-- Totalisation of a finite vector by zero. -/
def extendVec {p : Nat} [Zero F] (v : Fin p → F) : Nat → F :=
  fun k => if h : k < p then v ⟨k, h⟩ else 0

open scoped ComplexOrder

/-- The claim's concrete two-node source tree:
`g_l = [0.01, 0.01]`, `g_c[1] = 0.02`, `ca = [1, 1]`. -/
noncomputable def exTreeTrue : List (CNode ℝ) :=
  [⟨0, none, 1, 0, 1/100⟩, ⟨1, some 0, 1, 2/100, 1/100⟩]

/-- The matching fresh tree with placeholder parameters
(`ca = 1`, `g_c = 0`, `g_l = 0.01`, the class defaults). -/
noncomputable def exTreeFresh : List (CNode ℝ) :=
  [⟨0, none, 1, 0, 1/100⟩, ⟨1, some 0, 1, 0, 1/100⟩]

/-- The exact steady-state impedance matrix of `exTreeTrue`
(the inverse of `[[0.03, -0.02], [-0.02, 0.03]]`). -/
noncomputable def exZ : Matrix (Fin 2) (Fin 2) ℝ :=
  Matrix.of ![![60, 40], ![40, 60]]

/-- The exact impedance slice of `exTreeTrue` at frequency `1`
(the inverse of `[[1.03, -0.02], [-0.02, 1.03]]`). -/
noncomputable def exZf : Fin 1 → Matrix (Fin 2) (Fin 2) ℂ :=
  fun _ => Matrix.of ![![2060/2121, 40/2121], ![40/2121, 2060/2121]]

/-!
## Theorems
-/

theorem gStep_apply [CommRing F] (m : Nat → Nat → F) (node : CNode F)
    (a b : Nat) : gStep m node a b = m a b + gContrib node a b := by
  cases hp : node.parent <;> simp [gStep, addEntry, gContrib, hp] <;> ring

/-- Generic evaluation lemma for the accumulation folds of the source: if one
loop iteration adds `contrib node` pointwise, the whole loop adds the sum of
the contributions of all nodes. -/
theorem foldl_contrib_apply {α : Type*} [CommRing F]
    (step : (Nat → Nat → F) → α → (Nat → Nat → F))
    (contrib : α → Nat → Nat → F)
    (hstep : ∀ m node a b, step m node a b = m a b + contrib node a b)
    (t : List α) (m : Nat → Nat → F) (a b : Nat) :
    t.foldl step m a b = m a b + (t.map (fun node => contrib node a b)).sum := by
  induction t generalizing m with
  | nil => simp
  | cons node rest ih =>
      rw [List.foldl_cons, ih]
      simp [hstep, add_assoc]

/-- Entry-wise closed form of the conductance matrix: the sum over all nodes
of their individual contributions. -/
theorem calcConductanceMatrix_apply [CommRing F] (t : List (CNode F))
    (a b : Nat) :
    calcConductanceMatrix t a b
      = (t.map (fun node => gContrib node a b)).sum := by
  have := foldl_contrib_apply gStep gContrib gStep_apply t (fun _ _ => 0) a b
  simpa [calcConductanceMatrix] using this

theorem sysStep_apply [CommRing R] [CommRing C] (phi : R →+* C) (f : C)
    (m : Nat → Nat → C) (node : CNode R) (a b : Nat) :
    sysStep phi f m node a b
      = m a b + if a = node.index ∧ b = node.index then f * phi node.ca
                else 0 := by
  simp [sysStep, addEntry]

/-- Entry-wise closed form of a system-matrix slice. -/
theorem systemSlice_apply [CommRing R] [CommRing C] (phi : R →+* C)
    (t : List (CNode R)) (f : C) (a b : Nat) :
    systemSlice phi t f a b
      = phi (calcConductanceMatrix t a b)
        + (t.map (fun node =>
            if a = node.index ∧ b = node.index then f * phi node.ca
            else 0)).sum :=
  foldl_contrib_apply (sysStep phi f)
    (fun node a b =>
      if a = node.index ∧ b = node.index then f * phi node.ca else 0)
    (sysStep_apply phi f) t _ a b

theorem gStructStep_apply [CommRing F] (m : Nat → Nat → Nat → F)
    (node : CNode F) (a b k : Nat) :
    gStructStep m node a b k = m a b k + gStructContrib node a b k := by
  cases hp : node.parent <;> simp [gStructStep, gStructContrib, hp]

/-- Generic fold-evaluation lemma, 3-index version. -/
theorem foldl_contrib3_apply {α : Type*} [CommRing F]
    (step : (Nat → Nat → Nat → F) → α → (Nat → Nat → Nat → F))
    (contrib : α → Nat → Nat → Nat → F)
    (hstep : ∀ m node a b k, step m node a b k = m a b k + contrib node a b k)
    (t : List α) (m : Nat → Nat → Nat → F) (a b k : Nat) :
    t.foldl step m a b k
      = m a b k + (t.map (fun node => contrib node a b k)).sum := by
  induction t generalizing m with
  | nil => simp
  | cons node rest ih =>
      rw [List.foldl_cons, ih]
      simp [hstep, add_assoc]

theorem toStructureTensorG_apply [CommRing F] (t : List (CNode F))
    (a b k : Nat) :
    toStructureTensorG t a b k
      = (t.map (fun node => gStructContrib node a b k)).sum := by
  have := foldl_contrib3_apply gStructStep gStructContrib gStructStep_apply t
    (fun _ _ _ => 0) a b k
  simpa [toStructureTensorG] using this

/-- Generic fold-evaluation lemma, 4-index version. -/
theorem foldl_contrib4_apply {α : Type*} [CommRing F]
    (step : (Nat → Nat → Nat → Nat → F) → α → (Nat → Nat → Nat → Nat → F))
    (contrib : α → Nat → Nat → Nat → Nat → F)
    (hstep : ∀ m node o a b l,
      step m node o a b l = m o a b l + contrib node o a b l)
    (t : List α) (m : Nat → Nat → Nat → Nat → F) (o a b l : Nat) :
    t.foldl step m o a b l
      = m o a b l + (t.map (fun node => contrib node o a b l)).sum := by
  induction t generalizing m with
  | nil => simp
  | cons node rest ih =>
      rw [List.foldl_cons, ih]
      simp [hstep, add_assoc]

theorem toStructureTensorC_apply [CommRing C] (t : List (CNode R))
    (freqs : List C) (o a b l : Nat) :
    toStructureTensorC t freqs o a b l
      = (t.map (fun node =>
          if a = node.index ∧ b = node.index ∧ l = node.index
          then freqs.getD o 0 else 0)).sum := by
  have := foldl_contrib4_apply (cStructStep freqs)
    (fun node o a b l =>
      if a = node.index ∧ b = node.index ∧ l = node.index then freqs.getD o 0
      else 0)
    (fun m node o a b l => rfl) t (fun _ _ _ _ => 0) o a b l
  simpa [toStructureTensorC] using this

theorem matInvEx_mul {n' : Type*} [Fintype n'] [DecidableEq n'] [Field F]
    (A : Matrix n' n' F) (h : A.det ≠ 0) : matInvEx A * A = 1 := by
  rw [matInvEx, Matrix.smul_mul, Matrix.adjugate_mul, smul_smul,
    inv_mul_cancel₀ h, one_smul]

theorem mul_matInvEx {n' : Type*} [Fintype n'] [DecidableEq n'] [Field F]
    (A : Matrix n' n' F) (h : A.det ≠ 0) : A * matInvEx A = 1 := by
  rw [matInvEx, Matrix.mul_smul, Matrix.mul_adjugate, smul_smul,
    inv_mul_cancel₀ h, one_smul]

/-- On a consistent system whose matrix has trivial kernel, the modelled
least-squares solver returns the unique exact solution. -/
theorem lstsq_exact {m' p' : Type*} [Fintype m'] [Fintype p']
    [DecidableEq p'] [Field F] [StarRing F] [PartialOrder F]
    [StarOrderedRing F] (A : Matrix m' p' F) (b : m' → F) (v : p' → F)
    (hker : ∀ w, A.mulVec w = 0 → w = 0) (hv : A.mulVec v = b) :
    lstsq A b = v := by
  have key : ∀ w, (A.conjTranspose * A).mulVec w = 0 → w = 0 := by
    intro w hw
    apply hker
    have h1 : Matrix.dotProduct (star (A.mulVec w)) (A.mulVec w) = 0 := by
      rw [Matrix.star_mulVec, ← Matrix.dotProduct_mulVec,
        Matrix.mulVec_mulVec, hw, Matrix.dotProduct_zero]
    exact Matrix.dotProduct_star_self_eq_zero.mp h1
  have hdet : (A.conjTranspose * A).det ≠ 0 := by
    intro h0
    obtain ⟨w, hw0, hw⟩ := (Matrix.exists_mulVec_eq_zero_iff).mpr h0
    exact hw0 (key w hw)
  have h2 : A.conjTranspose.mulVec (A.mulVec v)
      = (A.conjTranspose * A).mulVec v := Matrix.mulVec_mulVec v _ _
  calc lstsq A b
      = (matInvEx (A.conjTranspose * A)).mulVec
          ((A.conjTranspose * A).mulVec v) := by
        rw [lstsq, ← hv, h2]
    _ = ((matInvEx (A.conjTranspose * A)) * (A.conjTranspose * A)).mulVec
          v := Matrix.mulVec_mulVec v _ _
    _ = v := by rw [matInvEx_mul _ hdet, Matrix.one_mulVec]

/-!
## Generic list helpers
-/

/-- A mapped list sum as a `Finset` sum over positions. -/
theorem list_map_sum_eq_sum_get {α M : Type*} [AddCommMonoid M]
    (t : List α) (f : α → M) :
    (t.map f).sum = ∑ i : Fin t.length, f (t.get i) := by
  conv_lhs => rw [← List.ofFn_get t]
  rw [List.map_ofFn, List.sum_ofFn]
  simp

theorem gContrib_eq_zero_of_not_touches [CommRing F] (node : CNode F)
    (a b : Nat) (h : ¬ touches node a b) : gContrib node a b = 0 := by
  unfold touches at h
  unfold gContrib
  cases hp : node.parent with
  | none =>
      rw [hp] at h
      have h1 : ¬(a = node.index ∧ b = node.index) := fun hc => h (Or.inl hc)
      simp [h1]
  | some jj =>
      rw [hp] at h
      have h1 : ¬(a = node.index ∧ b = node.index) := fun hc => h (Or.inl hc)
      have h2 : ¬(a = jj ∧ b = jj) := fun hc => h (Or.inr (Or.inl hc))
      have h3 : ¬(a = node.index ∧ b = jj) :=
        fun hc => h (Or.inr (Or.inr (Or.inl hc)))
      have h4 : ¬(a = jj ∧ b = node.index) :=
        fun hc => h (Or.inr (Or.inr (Or.inr hc)))
      simp [h1, h2, h3, h4]

/-- C2.  `calcConductanceMatrix` returns exactly the matrix accumulated,
starting from zero, from every node's contribution `g_l + g_c` at `(i, i)`
plus, when a parent `j` exists, `g_c` at `(j, j)` and `-g_c` at `(i, j)`
and `(j, i)`; an entry touched by no node stays zero.  (The embedding is a
pure function of the node list, which is returned unchanged: no node state
is mutated.) -/
theorem calcConductanceMatrix_entry_spec [CommRing F] (t : List (CNode F))
    (a b : Nat) :
    calcConductanceMatrix t a b
        = (t.map (fun node => gContrib node a b)).sum
      ∧ ((∀ node ∈ t, ¬ touches node a b) → calcConductanceMatrix t a b = 0)
    := by
  refine ⟨calcConductanceMatrix_apply t a b, fun h => ?_⟩
  rw [calcConductanceMatrix_apply t a b]
  apply List.sum_eq_zero
  intro x hx
  obtain ⟨node, hnode, rfl⟩ := List.mem_map.mp hx
  exact gContrib_eq_zero_of_not_touches node a b (h node hnode)

/-- C2 witness: on the concrete two-node chain, the entry characterisation
holds and the untouched entry `(0, 5)` is zero. -/
theorem calcConductanceMatrix_entry_spec_witness :
    calcConductanceMatrix
        [⟨0, none, 1, 0, (3 : ℤ)⟩, ⟨1, some 0, 1, 2, 3⟩] 0 5 = 0 :=
  (calcConductanceMatrix_entry_spec
    [⟨0, none, 1, 0, (3 : ℤ)⟩, ⟨1, some 0, 1, 2, 3⟩] 0 5).2 (by decide)

/-!
## Claim C6: symmetry
-/

theorem gContrib_symm [CommRing F] (node : CNode F) (a b : Nat) :
    gContrib node a b = gContrib node b a := by
  unfold gContrib
  cases node.parent with
  | none => simp [and_comm]
  | some jj =>
      by_cases h1 : a = node.index <;> by_cases h2 : b = node.index <;>
        by_cases h3 : a = jj <;> by_cases h4 : b = jj <;>
        simp [h1, h2, h3, h4] <;> (try ring) <;>
        (try simp [and_comm, eq_comm]) <;> try ring

/-- C6.  For every parameter assignment and tree topology the conductance
matrix is symmetric, and so is every frequency slice of the system
matrix. -/
theorem conductance_and_system_matrix_symmetric [CommRing R] [CommRing C]
    (phi : R →+* C) (t : List (CNode R)) (freqs : List C) (a b : Nat) :
    calcConductanceMatrix t a b = calcConductanceMatrix t b a
      ∧ ∀ s ∈ calcSystemMatrix phi t freqs, s a b = s b a := by
  have hG : calcConductanceMatrix t a b = calcConductanceMatrix t b a := by
    rw [calcConductanceMatrix_apply, calcConductanceMatrix_apply]
    exact congrArg List.sum
      (List.map_congr_left (fun node _ => gContrib_symm node a b))
  refine ⟨hG, fun s hs => ?_⟩
  obtain ⟨f, hf, rfl⟩ := List.mem_map.mp hs
  rw [systemSlice_apply, systemSlice_apply, hG]
  exact congrArg (phi (calcConductanceMatrix t b a) + ·)
    (congrArg List.sum
      (List.map_congr_left (fun node _ => if_congr and_comm rfl rfl)))

/-- C6 witness: symmetry at a concrete tree, entry pair and frequency. -/
theorem conductance_and_system_matrix_symmetric_witness :
    calcConductanceMatrix
        [⟨0, none, 1, 0, (3 : ℤ)⟩, ⟨1, some 0, 5, 2, 3⟩] 0 1
      = calcConductanceMatrix
        [⟨0, none, 1, 0, (3 : ℤ)⟩, ⟨1, some 0, 5, 2, 3⟩] 1 0
    ∧ systemSlice (RingHom.id ℤ)
        [⟨0, none, 1, 0, (3 : ℤ)⟩, ⟨1, some 0, 5, 2, 3⟩] 2 0 1
      = systemSlice (RingHom.id ℤ)
        [⟨0, none, 1, 0, (3 : ℤ)⟩, ⟨1, some 0, 5, 2, 3⟩] 2 1 0 :=
  ⟨(conductance_and_system_matrix_symmetric (RingHom.id ℤ)
      [⟨0, none, 1, 0, (3 : ℤ)⟩, ⟨1, some 0, 5, 2, 3⟩] [2] 0 1).1,
   (conductance_and_system_matrix_symmetric (RingHom.id ℤ)
      [⟨0, none, 1, 0, (3 : ℤ)⟩, ⟨1, some 0, 5, 2, 3⟩] [2] 0 1).2
     (systemSlice (RingHom.id ℤ)
        [⟨0, none, 1, 0, (3 : ℤ)⟩, ⟨1, some 0, 5, 2, 3⟩] 2)
     (List.mem_map_of_mem _ (List.mem_singleton.mpr rfl))⟩

/-!
## Claim C9: the root's coupling conductance is **not** ignored
-/

/-- C9 counterexample: two single-node trees that differ only in the root's
`g_c` (0 versus 1; same index, parent, `ca`, `g_l`) produce different
conductance matrices, because the loop adds `g_l + g_c` on the diagonal for
the root as well.  This refutes the claim that `calcConductanceMatrix` is
invariant under changes of the root's `g_c`. -/
theorem root_coupling_ignored_cex :
    calcConductanceMatrix [(⟨0, none, 1, 0, 1⟩ : CNode ℤ)] 0 0 = 1
      ∧ calcConductanceMatrix [(⟨0, none, 1, 1, 1⟩ : CNode ℤ)] 0 0 = 2 := by
  constructor <;> decide

theorem list_sum_set {M : Type*} [AddCommGroup M] (l : List M) (i : Nat)
    (x : M) (h : i < l.length) :
    (l.set i x).sum = l.sum + x - l.get ⟨i, h⟩ := by
  induction l generalizing i with
  | nil => simp at h
  | cons y ys ih =>
      cases i with
      | zero => simp [List.set_cons_zero]; abel
      | succ j =>
          have hj : j < ys.length := by simpa using h
          simp [List.set_cons_succ, ih j hj]
          abel

/-- The contribution of a parentless node reduces to its diagonal term. -/
theorem gContrib_root [CommRing F] (node : CNode F)
    (hp : node.parent = none) (a b : Nat) :
    gContrib node a b
      = if a = node.index ∧ b = node.index then node.g_l + node.g_c
        else 0 := by
  unfold gContrib
  rw [hp]
  simp

/-- C9 amended.  Changing only the root's `g_c` changes the conductance
matrix exactly at the diagonal entry `(r, r)` of the root's index, by the
difference of the two coupling values; all other entries agree (so the
matrices coincide only when the two root `g_c` values coincide, and
`calcSystemMatrix` / `calcImpedanceMatrix` inherit the same difference). -/
theorem root_coupling_diagonal_only [CommRing F] (t : List (CNode F))
    (i : Nat) (h : i < t.length) (hroot : (t.get ⟨i, h⟩).parent = none)
    (g : F) (a b : Nat) :
    calcConductanceMatrix (t.set i { t.get ⟨i, h⟩ with g_c := g }) a b
      = calcConductanceMatrix t a b
        + (if a = (t.get ⟨i, h⟩).index ∧ b = (t.get ⟨i, h⟩).index
           then g - (t.get ⟨i, h⟩).g_c else 0) := by
  rw [calcConductanceMatrix_apply, calcConductanceMatrix_apply,
    List.map_set, list_sum_set _ i _ (by simpa using h)]
  have hget : (t.map (fun node => gContrib node a b)).get
      ⟨i, by simpa using h⟩ = gContrib (t.get ⟨i, h⟩) a b := by
    simp
  rw [hget]
  have h1 := gContrib_root { t.get ⟨i, h⟩ with g_c := g } hroot a b
  have h2 := gContrib_root (t.get ⟨i, h⟩) hroot a b
  simp only at h1
  rw [h1, h2]
  by_cases hab : a = (t.get ⟨i, h⟩).index ∧ b = (t.get ⟨i, h⟩).index <;>
    simp only [List.get_eq_getElem] at hab ⊢ <;> simp [hab] <;> ring

/-- C9 amended witness: on `qTree2`, replacing the root's `g_c` by 5 shifts
entry `(0,0)` by exactly `5 - 0`. -/
theorem root_coupling_diagonal_only_witness :
    calcConductanceMatrix
        (qTree2.set 0 { qTree2.get ⟨0, by decide⟩ with g_c := 5 }) 0 0
      = calcConductanceMatrix qTree2 0 0 + 5 := by
  have h := root_coupling_diagonal_only qTree2 0 (by decide) (by decide)
    (5 : ℤ) 0 0
  rw [h]
  decide

/-!
## Claim C5: system-matrix slices
-/

/-- Summing an indexed `if a = i` selector over `Fin n` picks the `a`-th
term. -/
theorem sum_ite_index {M : Type*} [AddCommMonoid M] (n : Nat) (c : Fin n → M)
    (a : Nat) (ha : a < n) :
    (∑ i : Fin n, if a = i.val then c i else 0) = c ⟨a, ha⟩ := by
  rw [Finset.sum_eq_single ⟨a, ha⟩]
  · simp
  · intro i _ hi
    have : ¬ a = i.val := by
      intro hcontra
      exact hi (by
        apply Fin.ext
        simp [hcontra])
    simp [this]
  · intro hmem
    exact absurd (Finset.mem_univ _) hmem

theorem calcSystemMatrix_getD [CommRing R] [CommRing C] (phi : R →+* C)
    (t : List (CNode R)) (freqs : List C) (i : Nat)
    (hi : i < freqs.length) :
    (calcSystemMatrix phi t freqs).getD i (fun _ _ => 0)
      = systemSlice phi t (freqs.get ⟨i, hi⟩) := by
  rw [calcSystemMatrix, List.getD_eq_getElem?_getD, List.getElem?_map]
  simp [List.getElem?_eq_getElem hi]

/-- Closed form of a system-matrix slice on a canonical tree. -/
theorem systemSlice_canonical [CommRing R] [CommRing C] (phi : R →+* C)
    (t : List (CNode R)) (hc : canonical t) (f : C) (a b : Nat) :
    systemSlice phi t f a b
      = phi (calcConductanceMatrix t a b)
        + (if h : a = b ∧ a < t.length
           then f * phi ((t.get ⟨a, h.2⟩).ca) else 0) := by
  rw [systemSlice_apply]
  congr 1
  rw [list_map_sum_eq_sum_get]
  have hidx : ∀ j : Fin t.length, (t.get j).index = j.val :=
    fun j => (hc.2 j.val j.isLt).1
  by_cases hab : a = b
  · subst hab
    by_cases ha : a < t.length
    · rw [dif_pos ⟨rfl, ha⟩]
      calc (∑ j : Fin t.length,
              if a = (t.get j).index ∧ a = (t.get j).index
              then f * phi ((t.get j).ca) else 0)
          = ∑ j : Fin t.length,
              if a = j.val then f * phi ((t.get j).ca)
              else 0 := by
            refine Finset.sum_congr rfl (fun j _ => ?_)
            rw [hidx j]
            simp
        _ = f * phi ((t.get ⟨a, ha⟩).ca) :=
            sum_ite_index t.length _ a ha
    · rw [dif_neg (fun hcon => ha hcon.2)]
      refine Finset.sum_eq_zero (fun j _ => ?_)
      rw [hidx j]
      have : ¬ a = j.val := fun hcon => ha (hcon ▸ j.isLt)
      simp [this]
  · rw [dif_neg (fun hcon => hab hcon.1)]
    refine Finset.sum_eq_zero (fun j _ => ?_)
    have hno : ¬ (a = (t.get j).index ∧ b = (t.get j).index) := by
      rintro ⟨rfl, rfl⟩
      exact hab rfl
    simp only [List.get_eq_getElem] at hno
    simp [hno]

/-- C5.  `calcSystemMatrix` without frequencies is exactly the conductance
matrix; with a frequency array it returns one slice per frequency (in a
complex dtype `C`, the codomain of the cast `phi`), and the slice at
frequency position `i` equals the cast conductance matrix plus
`freqs[i] * ca(a)` at each diagonal entry `(a, a)` of a node, and nothing
else: off the diagonal (and on diagonal positions beyond the node range) it
coincides with the conductance matrix. -/
theorem calcSystemMatrix_spec [CommRing R] [CommRing C] (phi : R →+* C)
    (t : List (CNode R)) (freqs : List C) (hc : canonical t) :
    calcSystemMatrixNone t = calcConductanceMatrix t
      ∧ (calcSystemMatrix phi t freqs).length = freqs.length
      ∧ ∀ i (hi : i < freqs.length) (a b : Nat),
          ((calcSystemMatrix phi t freqs).getD i (fun _ _ => 0)) a b
            = phi (calcConductanceMatrix t a b)
              + (if h : a = b ∧ a < t.length
                 then freqs.get ⟨i, hi⟩ * phi ((t.get ⟨a, h.2⟩).ca)
                 else 0) := by
  refine ⟨rfl, by simp [calcSystemMatrix], fun i hi a b => ?_⟩
  rw [calcSystemMatrix_getD phi t freqs i hi]
  exact systemSlice_canonical phi t hc (freqs.get ⟨i, hi⟩) a b

/-- C5 witness: on the concrete chain `qTree2` with frequencies `[2, 3]`,
the slice at frequency position 1 adds `3 * ca` on the diagonal and leaves
the off-diagonal entry untouched. -/
theorem calcSystemMatrix_spec_witness :
    ((calcSystemMatrix (RingHom.id ℤ) qTree2 [2, 3]).getD 1
        (fun _ _ => 0)) 1 1
      = calcConductanceMatrix qTree2 1 1 + 3 * 1
    ∧ ((calcSystemMatrix (RingHom.id ℤ) qTree2 [2, 3]).getD 1
        (fun _ _ => 0)) 0 1
      = calcConductanceMatrix qTree2 0 1 := by
  have h1 := (calcSystemMatrix_spec (RingHom.id ℤ) qTree2 [2, 3]
    (by decide)).2.2 1 (by decide) 1 1
  have h2 := (calcSystemMatrix_spec (RingHom.id ℤ) qTree2 [2, 3]
    (by decide)).2.2 1 (by decide) 0 1
  rw [h1, h2]
  constructor <;> decide

/-!
## Claim C8: impedance matrix
-/

theorem npInv_eq_none_iff {n' : Type*} [Fintype n'] [DecidableEq n']
    [Field F] [DecidableEq F] (A : Matrix n' n' F) :
    npInv A = none ↔ A.det = 0 := by
  unfold npInv
  split <;> simp_all

theorem npInv_eq_some_inv {n' : Type*} [Fintype n'] [DecidableEq n']
    [Field F] [DecidableEq F] (A B : Matrix n' n' F)
    (h : npInv A = some B) : A * B = 1 ∧ B * A = 1 := by
  unfold npInv at h
  split at h
  · exact absurd h (by simp)
  · next hdet =>
      obtain rfl : matInvEx A = B := by simpa using h
      exact ⟨mul_matInvEx A hdet, matInvEx_mul A hdet⟩

theorem optionMapList_eq_none_iff {α β : Type*} (f : α → Option β)
    (l : List α) : optionMapList f l = none ↔ ∃ x ∈ l, f x = none := by
  induction l with
  | nil => simp [optionMapList]
  | cons x xs ih =>
      rw [optionMapList]
      cases hfx : f x with
      | none =>
          cases hxs : optionMapList f xs <;>
            exact iff_of_true rfl ⟨x, List.mem_cons_self x xs, hfx⟩
      | some y =>
          cases hxs : optionMapList f xs with
          | none =>
              obtain ⟨z, hz, hfz⟩ := ih.mp hxs
              exact iff_of_true rfl ⟨z, List.mem_cons_of_mem x hz, hfz⟩
          | some ys =>
              apply iff_of_false
              · simp
              · rintro ⟨z, hz, hfz⟩
                rcases List.mem_cons.mp hz with rfl | hz
                · rw [hfx] at hfz
                  exact Option.noConfusion hfz
                · have hcon := ih.mpr ⟨z, hz, hfz⟩
                  rw [hxs] at hcon
                  exact Option.noConfusion hcon

theorem optionMapList_eq_some_parts {α β : Type*} (f : α → Option β) :
    ∀ (l : List α) (r : List β), optionMapList f l = some r →
      r.length = l.length ∧ ∀ i (h1 : i < l.length) (h2 : i < r.length),
        f (l.get ⟨i, h1⟩) = some (r.get ⟨i, h2⟩) := by
  intro l
  induction l with
  | nil =>
      intro r hr
      simp only [optionMapList, Option.some_inj] at hr
      subst hr
      exact ⟨rfl, fun i h1 => by simp at h1⟩
  | cons x xs ih =>
      intro r hr
      rw [optionMapList] at hr
      cases hfx : f x with
      | none => rw [hfx] at hr; exact Option.noConfusion hr
      | some y =>
          rw [hfx] at hr
          cases hxs : optionMapList f xs with
          | none => rw [hxs] at hr; exact Option.noConfusion hr
          | some ys =>
              rw [hxs] at hr
              obtain rfl : (y :: ys : List β) = r := by simpa using hr
              obtain ⟨hlen, hget⟩ := ih ys hxs
              refine ⟨by simp [hlen], fun i h1 h2 => ?_⟩
              cases i with
              | zero => simpa using hfx
              | succ j =>
                  have hj1 : j < xs.length := by simpa using h1
                  have hj2 : j < ys.length := by simpa using h2
                  simpa using hget j hj1 hj2

/-- C8.  `calcImpedanceMatrix` is the per-slice matrix inverse of
`calcSystemMatrix`: without frequencies it fails (propagating the
`LinAlgError` of `np.linalg.inv`, modelled by `none`) exactly when the
conductance matrix is singular and otherwise returns its two-sided inverse;
with a frequency array it fails exactly when some frequency slice is
singular, and otherwise returns the list of two-sided inverses of the
slices, in order. -/
theorem calcImpedanceMatrix_spec [Field R] [DecidableEq R] [Field C]
    [DecidableEq C] (phi : R →+* C) (t : List (CNode R)) (freqs : List C) :
    (calcImpedanceMatrixNone t = none
        ↔ (toMat t.length (calcConductanceMatrix t)).det = 0)
      ∧ (∀ Z, calcImpedanceMatrixNone t = some Z →
          toMat t.length (calcConductanceMatrix t) * Z = 1
            ∧ Z * toMat t.length (calcConductanceMatrix t) = 1)
      ∧ (calcImpedanceMatrix phi t freqs = none
          ↔ ∃ f ∈ freqs, (toMat t.length (systemSlice phi t f)).det = 0)
      ∧ (∀ Zs, calcImpedanceMatrix phi t freqs = some Zs →
          Zs.length = freqs.length
            ∧ ∀ i (hi : i < freqs.length) (hz : i < Zs.length),
                toMat t.length (systemSlice phi t (freqs.get ⟨i, hi⟩))
                    * Zs.get ⟨i, hz⟩ = 1
                  ∧ Zs.get ⟨i, hz⟩
                      * toMat t.length (systemSlice phi t (freqs.get ⟨i, hi⟩))
                    = 1) := by
  refine ⟨?_, ?_, ?_, ?_⟩
  · exact npInv_eq_none_iff _
  · intro Z hZ
    exact npInv_eq_some_inv _ Z hZ
  · rw [calcImpedanceMatrix, optionMapList_eq_none_iff]
    constructor
    · rintro ⟨s, hs, hnone⟩
      obtain ⟨f, hf, rfl⟩ := List.mem_map.mp hs
      exact ⟨f, hf, (npInv_eq_none_iff _).mp hnone⟩
    · rintro ⟨f, hf, hdet⟩
      exact ⟨systemSlice phi t f, List.mem_map_of_mem _ hf,
        (npInv_eq_none_iff _).mpr hdet⟩
  · intro Zs hZs
    rw [calcImpedanceMatrix] at hZs
    obtain ⟨hlen, hget⟩ := optionMapList_eq_some_parts _ _ Zs hZs
    have hlenS : (calcSystemMatrix phi t freqs).length = freqs.length := by
      simp [calcSystemMatrix]
    refine ⟨hlen.trans hlenS, fun i hi hz => ?_⟩
    have hiS : i < (calcSystemMatrix phi t freqs).length := by
      rw [hlenS]; exact hi
    have hslice : (calcSystemMatrix phi t freqs).get ⟨i, hiS⟩
        = systemSlice phi t (freqs.get ⟨i, hi⟩) := by
      simp [calcSystemMatrix]
    have h := hget i hiS hz
    rw [hslice] at h
    exact npInv_eq_some_inv _ _ h

/-- C8 witness: on a concrete singular single-node tree (all conductances
zero) the steady-state inversion fails, while on `qTree2` over `ℚ` the
one-frequency inversion succeeds and returns two-sided inverses. -/
theorem calcImpedanceMatrix_spec_witness :
    calcImpedanceMatrixNone [(⟨0, none, 1, 0, 0⟩ : CNode ℚ)] = none
      ∧ ∀ Zs, calcImpedanceMatrix (RingHom.id ℚ) qTree2Q [2] = some Zs →
          Zs.length = 1 := by
  constructor
  · exact (calcImpedanceMatrix_spec (RingHom.id ℚ)
      [(⟨0, none, 1, 0, 0⟩ : CNode ℚ)] ([] : List ℚ)).1.mpr (by
        norm_num [toMat, calcSystemMatrixNone]
        rw [Matrix.det_fin_one]
        norm_num [calcConductanceMatrix_apply, gContrib])
  · intro Zs hZs
    exact ((calcImpedanceMatrix_spec (RingHom.id ℚ) qTree2Q [2]).2.2.2 Zs
      hZs).1

/-!
## Claim C4: `computeGC` error behaviour
-/

/-- Indices produced by `np.where` on a condition over `xs` are in range. -/
theorem whereIdx_lt_length {α : Type*} (p : α → Bool) (xs : List α) :
    ∀ i ∈ whereIdx p xs, i < xs.length := by
  intro i hi
  unfold whereIdx at hi
  obtain ⟨q, hq, rfl⟩ := List.mem_map.mp hi
  have hqe : q ∈ xs.enum := List.mem_of_mem_filter hq
  obtain ⟨a, b⟩ := q
  have hsome : xs[a]? = some b := List.mk_mem_enum_iff_getElem?.mp hqe
  exact (List.getElem?_eq_some.mp hsome).1

/-- C4.  The embedded `computeGC` raises `NameError` on every call (its
first statement reads the undefined name `kwargs`), so in particular it
never raises the documented `ValueError`; and, independently, even the
intended fallback branch could not reach its `ValueError`: the indices
`np.where(|freqs| < 1e-12)[0]` are always in range for `zf_mat`'s leading
axis (which has one slice per frequency), so the fancy indexing
`zf_mat[ind0]` never raises `IndexError` — the `except IndexError` handler
guarding the `ValueError` is dead code, and an empty index list silently
yields an empty selection instead of an error. -/
theorem computeGC_error_behaviour {β : Type*} [CommRing R] :
    (∀ (t : List (CNode R)) (freqs : List C)
        (zf : List (Matrix (Fin t.length) (Fin t.length) C)),
        computeGC t freqs zf = Except.error PyErr.nameError
          ∧ computeGC t freqs zf ≠ Except.error PyErr.valueError)
      ∧ (∀ (p : C → Bool) (freqs : List C) (zf : List β),
          zf.length = freqs.length →
            ∃ ms, fancyIndex zf (whereIdx p freqs) = some ms) := by
  constructor
  · intro t freqs zf
    exact ⟨rfl, by simp [computeGC]⟩
  · intro p freqs zf hlen
    cases hfi : fancyIndex zf (whereIdx p freqs) with
    | some ms => exact ⟨ms, rfl⟩
    | none =>
        exfalso
        obtain ⟨i, hi, hnone⟩ :=
          (optionMapList_eq_none_iff _ _).mp hfi
        have hlt : i < zf.length :=
          hlen ▸ whereIdx_lt_length p freqs i hi
        rw [List.get?_eq_getElem?, List.getElem?_eq_none_iff] at hnone
        omega

/-- C4 witness: with one nonzero frequency and a matching one-slice tensor,
`computeGC` raises `NameError` (not `ValueError`), and the fancy-indexing
step of the intended branch succeeds (returning the empty selection). -/
theorem computeGC_error_behaviour_witness :
    computeGC qTree2 [(5 : ℤ)]
        [toMat qTree2.length (calcConductanceMatrix qTree2)]
      = Except.error PyErr.nameError
    ∧ ∃ ms,
        fancyIndex [(37 : ℤ)] (whereIdx (fun f => f == 0) [(5 : ℤ)])
          = some ms :=
  ⟨((computeGC_error_behaviour (R := ℤ) (C := ℤ) (β := ℤ)).1 qTree2
      [(5 : ℤ)] [toMat qTree2.length (calcConductanceMatrix qTree2)]).1,
   (computeGC_error_behaviour (R := ℤ) (C := ℤ) (β := ℤ)).2
     (fun f => f == 0) [(5 : ℤ)] [(37 : ℤ)] (by decide)⟩

/-!
## Claim C10: frame property of the fitting routines
-/

theorem toTreeG_length (t : List (CNode F)) (g : Nat → F) :
    (toTreeG t g).length = t.length := by
  simp [toTreeG]

theorem toTreeC_length (t : List (CNode F)) (c : Nat → F) :
    (toTreeC t c).length = t.length := by
  simp [toTreeC]

theorem toTreeG_get (t : List (CNode F)) (g : Nat → F) (i : Nat)
    (h : i < t.length) (h' : i < (toTreeG t g).length) :
    (toTreeG t g).get ⟨i, h'⟩
      = match (t.get ⟨i, h⟩).parent with
        | none => { t.get ⟨i, h⟩ with g_l := g i }
        | some _ =>
            { t.get ⟨i, h⟩ with g_c := g (2 * i - 1), g_l := g (2 * i) } := by
  simp [toTreeG]

theorem toTreeC_get (t : List (CNode F)) (c : Nat → F) (i : Nat)
    (h : i < t.length) (h' : i < (toTreeC t c).length) :
    (toTreeC t c).get ⟨i, h'⟩ = { t.get ⟨i, h⟩ with ca := c i } := by
  simp [toTreeC]

theorem toTreeG_preserves (t : List (CNode F)) (g : Nat → F) (i : Nat)
    (h : i < t.length) (h' : i < (toTreeG t g).length) :
    ((toTreeG t g).get ⟨i, h'⟩).index = (t.get ⟨i, h⟩).index
      ∧ ((toTreeG t g).get ⟨i, h'⟩).parent = (t.get ⟨i, h⟩).parent
      ∧ ((toTreeG t g).get ⟨i, h'⟩).ca = (t.get ⟨i, h⟩).ca := by
  rw [toTreeG_get t g i h h']
  cases hp : (t.get ⟨i, h⟩).parent <;>
    simp only [List.get_eq_getElem] at hp <;> simp [hp]

theorem toTreeC_preserves (t : List (CNode F)) (c : Nat → F) (i : Nat)
    (h : i < t.length) (h' : i < (toTreeC t c).length) :
    ((toTreeC t c).get ⟨i, h'⟩).index = (t.get ⟨i, h⟩).index
      ∧ ((toTreeC t c).get ⟨i, h'⟩).parent = (t.get ⟨i, h⟩).parent
      ∧ ((toTreeC t c).get ⟨i, h'⟩).g_l = (t.get ⟨i, h⟩).g_l
      ∧ ((toTreeC t c).get ⟨i, h'⟩).g_c = (t.get ⟨i, h⟩).g_c := by
  rw [toTreeC_get t c i h h']
  simp

theorem computeG_length [Field F] [StarRing F] (t : List (CNode F))
    (z : Matrix (Fin t.length) (Fin t.length) F) :
    (computeG t z).length = t.length :=
  toTreeG_length t _

theorem computeC_length {R C : Type*} [Field C] [StarRing C] [CommRing R]
    (phi : R →+* C) (re : C → R) (t : List (CNode R)) (freqs : List C)
    (zf : Fin freqs.length → Matrix (Fin t.length) (Fin t.length) C) :
    (computeC phi re t freqs zf).length = t.length :=
  toTreeC_length t _

/-- C10.  On canonical trees (the valid inputs), `computeG` writes only the
`g_l`/`g_c` fields: the node count and every node's `index`, `parent` and
`ca` are returned unchanged; `computeC` writes only the `ca` fields: the
node count and every node's `index`, `parent`, `g_l` and `g_c` are returned
unchanged. -/
theorem fit_frame_property {R C : Type*} [Field R] [StarRing R] [Field C]
    [StarRing C] (phi : R →+* C) (re : C → R) (t : List (CNode R))
    (hc : canonical t) (z : Matrix (Fin t.length) (Fin t.length) R)
    (freqs : List C)
    (zf : Fin freqs.length → Matrix (Fin t.length) (Fin t.length) C) :
    ((computeG t z).length = t.length
      ∧ ∀ i (h : i < t.length) (h' : i < (computeG t z).length),
          ((computeG t z).get ⟨i, h'⟩).index = (t.get ⟨i, h⟩).index
            ∧ ((computeG t z).get ⟨i, h'⟩).parent = (t.get ⟨i, h⟩).parent
            ∧ ((computeG t z).get ⟨i, h'⟩).ca = (t.get ⟨i, h⟩).ca)
      ∧ ((computeC phi re t freqs zf).length = t.length
      ∧ ∀ i (h : i < t.length) (h' : i < (computeC phi re t freqs zf).length),
          ((computeC phi re t freqs zf).get ⟨i, h'⟩).index
              = (t.get ⟨i, h⟩).index
            ∧ ((computeC phi re t freqs zf).get ⟨i, h'⟩).parent
              = (t.get ⟨i, h⟩).parent
            ∧ ((computeC phi re t freqs zf).get ⟨i, h'⟩).g_l
              = (t.get ⟨i, h⟩).g_l
            ∧ ((computeC phi re t freqs zf).get ⟨i, h'⟩).g_c
              = (t.get ⟨i, h⟩).g_c) := by
  exact ⟨⟨computeG_length t z, fun i h h' =>
      toTreeG_preserves t _ i h h'⟩,
    ⟨computeC_length phi re t freqs zf, fun i h h' =>
      toTreeC_preserves t _ i h h'⟩⟩

/-- C10 witness: on the concrete chain `qTree2Q` (with the identity cast
and real part), both fitting routines preserve topology and the untouched
parameter family at node 1. -/
theorem fit_frame_property_witness :
    ((computeG qTree2Q 1).get
        ⟨1, by rw [computeG_length]; decide⟩).ca
      = 1
    ∧ ((computeC (RingHom.id ℚ) id qTree2Q [] (fun _ => 1)).get
        ⟨1, by rw [computeC_length]; decide⟩).g_c
      = 2 := by
  have h := fit_frame_property (RingHom.id ℚ) id qTree2Q (by decide) 1 []
    (fun f => 1)
  refine ⟨?_, ?_⟩
  · rw [(h.1.2 1 (by decide) (by rw [computeG_length]; decide)).2.2]
    decide
  · rw [(h.2.2 1 (by decide)
      (by rw [computeC_length]; decide)).2.2.2]
    decide

theorem foldl_append_eq_flatMap {α β : Type*} (f : α → List β)
    (l : List α) (init : List β) :
    l.foldl (fun acc x => acc ++ f x) init = init ++ l.flatMap f := by
  induction l generalizing init with
  | nil => simp
  | cons x xs ih => simp [ih]

theorem toVecG_eq_flatMap (t : List (CNode F)) :
    toVecG t = t.flatMap nodeParams := by
  have h := foldl_append_eq_flatMap nodeParams t []
  simp only [List.nil_append] at h
  rw [toVecG, ← h]
  apply List.foldl_ext
  intro acc node _
  cases hp : node.parent <;> simp [nodeParams, hp]

theorem flatMap_pair_length {α : Type*} (c d : α → F) (l : List α) :
    (l.flatMap (fun x => [c x, d x])).length = 2 * l.length := by
  induction l with
  | nil => simp
  | cons x xs ih => simp [ih]; ring

theorem flatMap_pair_get {α : Type*} (c d : α → F) (l : List α) :
    ∀ (j : Nat) (hj : j < l.length),
      (l.flatMap (fun x => [c x, d x])).get? (2 * j)
          = some (c (l.get ⟨j, hj⟩))
        ∧ (l.flatMap (fun x => [c x, d x])).get? (2 * j + 1)
          = some (d (l.get ⟨j, hj⟩)) := by
  induction l with
  | nil => intro j hj; simp at hj
  | cons x xs ih =>
      intro j hj
      cases j with
      | zero => simp
      | succ k =>
          have hk : k < xs.length := by simpa using hj
          have heq : ∀ m : Nat, 2 * (k + 1) + m = 2 * k + m + 1 + 1 := by
            omega
          constructor
          · rw [show 2 * (k + 1) = 2 * k + 1 + 1 by omega]
            simpa using (ih k hk).1
          · rw [show 2 * (k + 1) + 1 = (2 * k + 1) + 1 + 1 by omega]
            simpa using (ih k hk).2

theorem canonical_index (t : List (CNode F)) (hc : canonical t) (i : Nat)
    (h : i < t.length) : (t.get ⟨i, h⟩).index = i :=
  (hc.2 i h).1

theorem canonical_root_parent (t : List (CNode F)) (hc : canonical t)
    (h0 : 0 < t.length) : (t.get ⟨0, h0⟩).parent = none := by
  have hok := (hc.2 0 h0).2
  cases hp : (t.get ⟨0, h0⟩).parent with
  | none => rfl
  | some j =>
      rw [hp] at hok
      simp only [parentOk] at hok
      exact absurd hok.1 (lt_irrefl 0)

theorem canonical_parent_pos (t : List (CNode F)) (hc : canonical t)
    (i : Nat) (h : i < t.length) (hi : 0 < i) :
    ∃ j, (t.get ⟨i, h⟩).parent = some j ∧ j < i := by
  have hok := (hc.2 i h).2
  cases hp : (t.get ⟨i, h⟩).parent with
  | none =>
      rw [hp] at hok
      simp only [parentOk] at hok
      omega
  | some j =>
      rw [hp] at hok
      simp only [parentOk] at hok
      exact ⟨j, rfl, hok.2⟩

theorem toVecG_canonical (t : List (CNode F)) (hc : canonical t) :
    toVecG t
      = (t.get ⟨0, hc.1⟩).g_l
          :: (t.tail.flatMap fun node => [node.g_c, node.g_l]) := by
  cases t with
  | nil => exact absurd hc.1 (by simp)
  | cons head rest =>
      rw [toVecG_eq_flatMap]
      have hhead : head.parent = none := canonical_root_parent _ hc (by simp)
      have hrest : rest.map nodeParams
          = rest.map (fun node => [node.g_c, node.g_l]) := by
        apply List.map_congr_left
        intro node hmem
        obtain ⟨j, hjget⟩ := List.get_of_mem hmem
        obtain ⟨jj, hjj, _⟩ := canonical_parent_pos (head :: rest) hc
          (j.val + 1) (by simpa using j.isLt) (Nat.succ_pos _)
        rw [List.get_cons_succ] at hjj
        rw [nodeParams, ← hjget, hjj]
      rw [List.flatMap_cons, List.flatMap_def, hrest, ← List.flatMap_def]
      rw [nodeParams, hhead]
      simp

theorem toVecG_length_canonical (t : List (CNode F)) (hc : canonical t) :
    (toVecG t).length = 2 * t.length - 1 := by
  rw [toVecG_canonical t hc]
  simp only [List.length_cons, flatMap_pair_length, List.length_tail]
  have := hc.1
  omega

theorem toVecG_get?_zero (t : List (CNode F)) (hc : canonical t) :
    (toVecG t).get? 0 = some ((t.get ⟨0, hc.1⟩).g_l) := by
  rw [toVecG_canonical t hc]
  rfl

theorem toVecG_get?_gc (t : List (CNode F)) (hc : canonical t) (i : Nat)
    (h : i < t.length) (hi : 0 < i) :
    (toVecG t).get? (2 * i - 1) = some ((t.get ⟨i, h⟩).g_c) := by
  cases t with
  | nil => exact absurd hc.1 (by simp)
  | cons head rest =>
      obtain ⟨k, rfl⟩ : ∃ k, i = k + 1 := ⟨i - 1, by omega⟩
      rw [toVecG_canonical _ hc, show 2 * (k + 1) - 1 = 2 * k + 1 by omega,
        List.get?_cons_succ, List.tail_cons]
      have hk : k < rest.length := by
        simp only [List.length_cons] at h
        omega
      rw [(flatMap_pair_get (fun node => node.g_c) (fun node => node.g_l)
        rest k hk).1]
      rw [List.get_cons_succ]

theorem toVecG_get?_gl (t : List (CNode F)) (hc : canonical t) (i : Nat)
    (h : i < t.length) (hi : 0 < i) :
    (toVecG t).get? (2 * i) = some ((t.get ⟨i, h⟩).g_l) := by
  cases t with
  | nil => exact absurd hc.1 (by simp)
  | cons head rest =>
      obtain ⟨k, rfl⟩ : ∃ k, i = k + 1 := ⟨i - 1, by omega⟩
      rw [toVecG_canonical _ hc, show 2 * (k + 1) = (2 * k + 1) + 1 by omega,
        List.get?_cons_succ, List.tail_cons]
      have hk : k < rest.length := by
        simp only [List.length_cons] at h
        omega
      rw [(flatMap_pair_get (fun node => node.g_c) (fun node => node.g_l)
        rest k hk).2]
      rw [List.get_cons_succ]

/-!
## Claim C3: structure-tensor reconstruction
-/

theorem gContrib_child [CommRing F] (node : CNode F) (jj : Nat)
    (hp : node.parent = some jj) (a b : Nat) :
    gContrib node a b
      = (if a = node.index ∧ b = node.index then node.g_l + node.g_c
         else 0)
        + ((if a = jj ∧ b = jj then node.g_c else 0)
          + (if a = node.index ∧ b = jj then -node.g_c else 0)
          + (if a = jj ∧ b = node.index then -node.g_c else 0)) := by
  unfold gContrib
  rw [hp]

theorem gStructContrib_root [CommRing F] (node : CNode F)
    (hp : node.parent = none) (a b k : Nat) :
    gStructContrib node a b k
      = if a = 0 ∧ b = 0 ∧ k = 0 then 1 else 0 := by
  unfold gStructContrib
  rw [hp]

theorem gStructContrib_child [CommRing F] (node : CNode F) (jj : Nat)
    (hp : node.parent = some jj) (a b k : Nat) :
    gStructContrib node a b k
      = (if a = node.index ∧ b = jj ∧ k = 2 * node.index - 1 then -1 else 0)
        + (if a = jj ∧ b = node.index ∧ k = 2 * node.index - 1 then -1
           else 0)
        + (if a = jj ∧ b = jj ∧ k = 2 * node.index - 1 then 1 else 0)
        + (if a = node.index ∧ b = node.index ∧ k = 2 * node.index - 1
           then 1 else 0)
        + (if a = node.index ∧ b = node.index ∧ k = 2 * node.index then 1
           else 0) := by
  unfold gStructContrib
  rw [hp]

/-- Contracting a parameter vector against a one-slot selector tensor picks
the slot's coefficient times the slot's parameter. -/
theorem sum_mul_ite_slot {p : Nat} [CommRing F] (v : Fin p → F)
    (P1 P2 : Prop) [Decidable P1] [Decidable P2] (K : Nat) (hK : K < p)
    (c : F) :
    (∑ k : Fin p, v k * if P1 ∧ P2 ∧ k.val = K then c else 0)
      = if P1 ∧ P2 then c * v ⟨K, hK⟩ else 0 := by
  by_cases h12 : P1 ∧ P2
  · rw [if_pos h12]
    rw [Finset.sum_eq_single (⟨K, hK⟩ : Fin p)]
    · simp [h12.1, h12.2, mul_comm]
    · intro k _ hk
      have hkK : ¬ k.val = K := fun hcon => hk (Fin.ext hcon)
      simp [hkK]
    · intro hmem
      exact absurd (Finset.mem_univ _) hmem
  · rw [if_neg h12]
    refine Finset.sum_eq_zero (fun k _ => ?_)
    have : ¬ (P1 ∧ P2 ∧ k.val = K) := fun hcon => h12 ⟨hcon.1, hcon.2.1⟩
    simp [this]

/-- Value of the parameter vector at a guaranteed-in-range slot. -/
theorem toVecG_get_of_get? (t : List (CNode F)) (K : Nat)
    (hK : K < (toVecG t).length) (x : F)
    (h : (toVecG t).get? K = some x) : (toVecG t).get ⟨K, hK⟩ = x := by
  rw [List.get?_eq_get hK] at h
  exact Option.some_injective _ h

/-- Per-node reconstruction: contracting the parameter vector against one
node's structure-tensor contribution recovers that node's conductance-matrix
contribution (root coupling assumed zero). -/
theorem node_reconstruction [CommRing F] (t : List (CNode F))
    (hc : canonical t)
    (hroot : ∀ node ∈ t, node.parent = none → node.g_c = 0)
    (a b : Nat) (i : Fin t.length) :
    (∑ k : Fin (toVecG t).length,
        (toVecG t).get k * gStructContrib (t.get i) a b k.val)
      = gContrib (t.get i) a b := by
  have hp : (toVecG t).length = 2 * t.length - 1 :=
    toVecG_length_canonical t hc
  have hidx : (t.get i).index = i.val := canonical_index t hc i.val i.isLt
  by_cases hi0 : i.val = 0
  · have hi : i = ⟨0, hc.1⟩ := Fin.ext hi0
    subst hi
    have hparent : (t.get ⟨0, hc.1⟩).parent = none :=
      canonical_root_parent t hc hc.1
    have hgc0 : (t.get ⟨0, hc.1⟩).g_c = 0 :=
      hroot _ (List.get_mem t 0 hc.1) hparent
    have h0p : 0 < (toVecG t).length := by
      rw [hp]
      have := hc.1
      omega
    have hv0 : (toVecG t).get ⟨0, h0p⟩ = (t.get ⟨0, hc.1⟩).g_l :=
      toVecG_get_of_get? t 0 h0p _ (toVecG_get?_zero t hc)
    calc (∑ k : Fin (toVecG t).length,
            (toVecG t).get k * gStructContrib (t.get ⟨0, hc.1⟩) a b k.val)
        = ∑ k : Fin (toVecG t).length,
            (toVecG t).get k * if a = 0 ∧ b = 0 ∧ k.val = 0 then 1
              else 0 := by
          refine Finset.sum_congr rfl (fun k _ => ?_)
          rw [gStructContrib_root _ hparent]
      _ = if a = 0 ∧ b = 0 then 1 * (toVecG t).get ⟨0, h0p⟩ else 0 :=
          sum_mul_ite_slot _ _ _ 0 h0p 1
      _ = gContrib (t.get ⟨0, hc.1⟩) a b := by
          rw [gContrib_root _ hparent, hv0, hidx, hgc0]
          by_cases hab : a = 0 ∧ b = 0 <;> simp [hab]
  · have hipos : 0 < i.val := Nat.pos_of_ne_zero hi0
    obtain ⟨jj, hjj, hjlt⟩ :=
      canonical_parent_pos t hc i.val i.isLt hipos
    have hK1 : 2 * i.val - 1 < (toVecG t).length := by
      rw [hp]
      have := i.isLt
      omega
    have hK2 : 2 * i.val < (toVecG t).length := by
      rw [hp]
      have := i.isLt
      omega
    have hvc : (toVecG t).get ⟨2 * i.val - 1, hK1⟩ = (t.get i).g_c := by
      refine toVecG_get_of_get? t _ hK1 _ ?_
      have := toVecG_get?_gc t hc i.val i.isLt hipos
      simpa using this
    have hvl : (toVecG t).get ⟨2 * i.val, hK2⟩ = (t.get i).g_l := by
      refine toVecG_get_of_get? t _ hK2 _ ?_
      have := toVecG_get?_gl t hc i.val i.isLt hipos
      simpa using this
    calc (∑ k : Fin (toVecG t).length,
            (toVecG t).get k * gStructContrib (t.get i) a b k.val)
        = ∑ k : Fin (toVecG t).length,
            ((toVecG t).get k
                * (if a = i.val ∧ b = jj ∧ k.val = 2 * i.val - 1 then -1
                   else 0)
              + ((toVecG t).get k
                * (if a = jj ∧ b = i.val ∧ k.val = 2 * i.val - 1 then -1
                   else 0)
              + ((toVecG t).get k
                * (if a = jj ∧ b = jj ∧ k.val = 2 * i.val - 1 then 1
                   else 0)
              + ((toVecG t).get k
                * (if a = i.val ∧ b = i.val ∧ k.val = 2 * i.val - 1 then 1
                   else 0)
              + (toVecG t).get k
                * (if a = i.val ∧ b = i.val ∧ k.val = 2 * i.val then 1
                   else 0))))) := by
          refine Finset.sum_congr rfl (fun k _ => ?_)
          rw [gStructContrib_child _ jj hjj, hidx]
          ring
      _ = (if a = i.val ∧ b = jj
             then (-1) * (toVecG t).get ⟨2 * i.val - 1, hK1⟩ else 0)
          + ((if a = jj ∧ b = i.val
             then (-1) * (toVecG t).get ⟨2 * i.val - 1, hK1⟩ else 0)
          + ((if a = jj ∧ b = jj
             then 1 * (toVecG t).get ⟨2 * i.val - 1, hK1⟩ else 0)
          + ((if a = i.val ∧ b = i.val
             then 1 * (toVecG t).get ⟨2 * i.val - 1, hK1⟩ else 0)
          + (if a = i.val ∧ b = i.val
             then 1 * (toVecG t).get ⟨2 * i.val, hK2⟩ else 0)))) := by
          rw [Finset.sum_add_distrib, Finset.sum_add_distrib,
            Finset.sum_add_distrib, Finset.sum_add_distrib,
            sum_mul_ite_slot _ _ _ _ hK1, sum_mul_ite_slot _ _ _ _ hK1,
            sum_mul_ite_slot _ _ _ _ hK1, sum_mul_ite_slot _ _ _ _ hK1,
            sum_mul_ite_slot _ _ _ _ hK2]
      _ = gContrib (t.get i) a b := by
          rw [gContrib_child _ jj hjj, hidx, hvc, hvl]
          have hne : ¬ (i.val = jj) := by omega
          have hne2 : ¬ (jj = i.val) := by omega
          by_cases h1 : a = i.val ∧ b = jj <;>
            by_cases h2 : a = jj ∧ b = i.val <;>
            by_cases h3 : a = jj ∧ b = jj <;>
            by_cases h4 : a = i.val ∧ b = i.val <;>
            simp [h1, h2, h3, h4, hne, hne2] <;> ring

/-- C3 counterexample: on the canonical single-node tree with root
`g_c = 1`, the contraction `Σ_k v[k]·S[0,0,k]` yields `g_l = 1`, but
`calcConductanceMatrix` puts `g_l + g_c = 2` at `(0,0)`: the claimed
identity fails whenever the root's `g_c` is nonzero, because `_toVecG` and
`_toStructureTensorG` ignore the root coupling while the matrix builder
adds it. -/
theorem structure_tensor_reconstruction_cex :
    ¬ ((∑ k : Fin (toVecG [(⟨0, none, 1, 1, 1⟩ : CNode ℤ)]).length,
        (toVecG [(⟨0, none, 1, 1, 1⟩ : CNode ℤ)]).get k
          * toStructureTensorG [(⟨0, none, 1, 1, 1⟩ : CNode ℤ)] 0 0 k.val)
      = calcConductanceMatrix [(⟨0, none, 1, 1, 1⟩ : CNode ℤ)] 0 0) := by
  decide

/-- Contraction of the parameter vector against the structure tensor
reconstructs the conductance matrix on canonical trees with zero root
coupling. -/
theorem reconstruction_canonical [CommRing F] (t : List (CNode F))
    (hc : canonical t)
    (hroot : ∀ node ∈ t, node.parent = none → node.g_c = 0) (a b : Nat) :
    (∑ k : Fin (toVecG t).length,
        (toVecG t).get k * toStructureTensorG t a b k.val)
      = calcConductanceMatrix t a b := by
  rw [calcConductanceMatrix_apply, list_map_sum_eq_sum_get]
  have hS : ∀ k : Fin (toVecG t).length,
      (toVecG t).get k * toStructureTensorG t a b k.val
        = ∑ i : Fin t.length,
            (toVecG t).get k * gStructContrib (t.get i) a b k.val := by
    intro k
    rw [toStructureTensorG_apply, list_map_sum_eq_sum_get, Finset.mul_sum]
  rw [Finset.sum_congr rfl (fun k _ => hS k), Finset.sum_comm]
  exact Finset.sum_congr rfl (fun i _ => node_reconstruction t hc hroot a b i)

/-- C3 amended.  For every canonical compartment tree whose root coupling
conductance is zero (the class-default convention; the fitting layout never
reads or writes it), contracting `_toVecG` against `_toStructureTensorG`
reconstructs `calcConductanceMatrix` exactly, entry by entry. -/
theorem structure_tensor_reconstruction [CommRing F] (t : List (CNode F))
    (hc : canonical t)
    (hroot : ∀ node ∈ t, node.parent = none → node.g_c = 0) (a b : Nat) :
    (∑ k : Fin (toVecG t).length,
        (toVecG t).get k * toStructureTensorG t a b k.val)
      = calcConductanceMatrix t a b :=
  reconstruction_canonical t hc hroot a b

/-- C3 witness: the reconstruction identity at a single root node, the
two-node chain and the three-node branch, at concrete entries. -/
theorem structure_tensor_reconstruction_witness :
    ((∑ k : Fin (toVecG [(⟨0, none, 1, 0, 5⟩ : CNode ℤ)]).length,
        (toVecG [(⟨0, none, 1, 0, 5⟩ : CNode ℤ)]).get k
          * toStructureTensorG [(⟨0, none, 1, 0, 5⟩ : CNode ℤ)] 0 0 k.val)
      = calcConductanceMatrix [(⟨0, none, 1, 0, 5⟩ : CNode ℤ)] 0 0)
    ∧ ((∑ k : Fin (toVecG qTree2).length,
        (toVecG qTree2).get k * toStructureTensorG qTree2 1 0 k.val)
      = calcConductanceMatrix qTree2 1 0)
    ∧ ((∑ k : Fin (toVecG qTree3).length,
        (toVecG qTree3).get k * toStructureTensorG qTree3 2 1 k.val)
      = calcConductanceMatrix qTree3 2 1) :=
  ⟨structure_tensor_reconstruction _ (by decide) (by decide) 0 0,
   structure_tensor_reconstruction qTree2 (by decide) (by decide) 1 0,
   structure_tensor_reconstruction qTree3 (by decide) (by decide) 2 1⟩

theorem toStructureTensorC_canonical [CommRing C] (t : List (CNode R))
    (hc : canonical t) (freqs : List C) (o j k l : Nat) :
    toStructureTensorC t freqs o j k l
      = capTensorSpec t.length freqs o j k l := by
  rw [toStructureTensorC_apply, list_map_sum_eq_sum_get, capTensorSpec]
  have hidx : ∀ m : Fin t.length, (t.get m).index = m.val :=
    fun m => canonical_index t hc m.val m.isLt
  by_cases hjkl : j = k ∧ k = l
  · obtain ⟨rfl, rfl⟩ := hjkl
    by_cases hj : j < t.length
    · rw [if_pos ⟨rfl, rfl, hj⟩]
      calc (∑ m : Fin t.length,
              if j = (t.get m).index ∧ j = (t.get m).index
                  ∧ j = (t.get m).index
              then freqs.getD o 0 else 0)
          = ∑ m : Fin t.length,
              if j = m.val then freqs.getD o 0 else 0 := by
            refine Finset.sum_congr rfl (fun m _ => ?_)
            rw [hidx m]
            simp
        _ = freqs.getD o 0 := sum_ite_index t.length _ j hj
    · rw [if_neg (fun hcon => hj hcon.2.2)]
      refine Finset.sum_eq_zero (fun m _ => ?_)
      rw [hidx m]
      have : ¬ j = m.val := fun hcon => hj (hcon ▸ m.isLt)
      simp [this]
  · rw [if_neg (fun hcon => hjkl ⟨hcon.1, hcon.2.1⟩)]
    refine Finset.sum_eq_zero (fun m _ => ?_)
    have hno : ¬ (j = (t.get m).index ∧ k = (t.get m).index
        ∧ l = (t.get m).index) := by
      rintro ⟨rfl, rfl, rfl⟩
      exact hjkl ⟨rfl, rfl⟩
    simp only [List.get_eq_getElem] at hno
    simp [hno]

theorem featureC_eq_spec [CommRing C] (t : List (CNode R))
    (hc : canonical t) (freqs : List C)
    (zf : Fin freqs.length → Matrix (Fin t.length) (Fin t.length) C) :
    featureC t freqs zf = featureCSpec t freqs zf := by
  ext fik l
  simp only [featureC, featureCSpec, Matrix.of_apply]
  exact Finset.sum_congr rfl (fun j _ => by
    rw [toStructureTensorC_canonical t hc freqs])

/-- C7.  On canonical trees, `computeC` is exactly the claim's procedure:
it solves the least-squares problem whose feature matrix contracts the
impedance tensor with the capacitance structure tensor
(`S[f,i,i,i] = freqs[f]`, zero elsewhere), against the target `I - Zf·G`
built from the currently stored conductances, and writes only the real part
of the solution into each node's `ca` by node index, leaving every other
field unchanged. -/
theorem computeC_get {R C : Type*} [CommRing R] [Field C] [StarRing C]
    (phi : R →+* C) (re : C → R) (t : List (CNode R)) (freqs : List C)
    (zf : Fin freqs.length → Matrix (Fin t.length) (Fin t.length) C)
    (i : Nat) (h : i < t.length)
    (h' : i < (computeC phi re t freqs zf).length) :
    (computeC phi re t freqs zf).get ⟨i, h'⟩
      = { t.get ⟨i, h⟩ with
            ca := if hx : i < t.length
              then re (lstsq (featureC t freqs zf) (targetC phi t freqs zf)
                ⟨i, hx⟩)
              else 0 } :=
  toTreeC_get t _ i h h'

theorem computeC_matches_spec {R C : Type*} [CommRing R] [Field C]
    [StarRing C] (phi : R →+* C) (re : C → R) (t : List (CNode R))
    (hc : canonical t) (freqs : List C)
    (zf : Fin freqs.length → Matrix (Fin t.length) (Fin t.length) C) :
    computeC phi re t freqs zf = computeCSpec phi re t freqs zf := by
  apply List.ext_get
  · rw [computeC_length, computeCSpec, List.length_map]
  · intro i h1 h2
    have ht : i < t.length := by
      rw [computeC_length] at h1
      exact h1
    rw [computeC_get phi re t freqs zf i ht h1]
    have hmap : (computeCSpec phi re t freqs zf).get ⟨i, h2⟩
        = { t.get ⟨i, ht⟩ with
              ca := if h : (t.get ⟨i, ht⟩).index < t.length
                then re (lstsq (featureCSpec t freqs zf)
                  (targetC phi t freqs zf) ⟨(t.get ⟨i, ht⟩).index, h⟩)
                else (t.get ⟨i, ht⟩).ca } := by
      unfold computeCSpec
      rw [List.get_map]
    rw [hmap, canonical_index t hc i ht]
    rw [dif_pos ht, dif_pos ht, featureC_eq_spec t hc freqs zf]

/-- C7 witness: the equality of `computeC` with its specification,
instantiated on the concrete chain `qTree2Q` (identity cast, identity real
part, empty frequency array). -/
theorem computeC_matches_spec_witness :
    computeC (RingHom.id ℚ) id qTree2Q [] (fun _ => 1)
      = computeCSpec (RingHom.id ℚ) id qTree2Q [] (fun _ => 1) :=
  computeC_matches_spec (RingHom.id ℚ) id qTree2Q (by decide) []
    (fun _ => 1)

/-!
## Claim C1: topology-transfer lemmas
-/

theorem sameTopology_length {t1 : List (CNode F)} {t2 : List (CNode R)}
    (h : sameTopology t1 t2) : t1.length = t2.length := by
  have := congrArg List.length h
  simpa using this

theorem sameTopology_fields {t1 : List (CNode F)} {t2 : List (CNode R)}
    (h : sameTopology t1 t2) (i : Nat) (h1 : i < t1.length)
    (h2 : i < t2.length) :
    (t1.get ⟨i, h1⟩).index = (t2.get ⟨i, h2⟩).index
      ∧ (t1.get ⟨i, h1⟩).parent = (t2.get ⟨i, h2⟩).parent := by
  have hm1 : i < (t1.map (fun node => (node.index, node.parent))).length :=
    by simpa using h1
  have hget := List.get_of_eq h ⟨i, hm1⟩
  rw [List.get_map, List.get_map] at hget
  exact ⟨congrArg Prod.fst hget, congrArg Prod.snd hget⟩

theorem sameTopology_of_fields {t1 : List (CNode F)} {t2 : List (CNode R)}
    (hlen : t1.length = t2.length)
    (hf : ∀ i (h1 : i < t1.length) (h2 : i < t2.length),
      (t1.get ⟨i, h1⟩).index = (t2.get ⟨i, h2⟩).index
        ∧ (t1.get ⟨i, h1⟩).parent = (t2.get ⟨i, h2⟩).parent) :
    sameTopology t1 t2 := by
  apply List.ext_get (by simpa using hlen)
  intro i hm1 hm2
  rw [List.get_map, List.get_map]
  have h1 : i < t1.length := by simpa using hm1
  have h2 : i < t2.length := by simpa using hm2
  exact Prod.ext ((hf i h1 h2).1) ((hf i h1 h2).2)

theorem canonical_of_sameTopology {t1 : List (CNode F)}
    {t2 : List (CNode R)} (h : sameTopology t1 t2) (hc : canonical t1) :
    canonical t2 := by
  have hlen := sameTopology_length h
  refine ⟨hlen ▸ hc.1, fun i hi => ?_⟩
  have h1 : i < t1.length := hlen ▸ hi
  obtain ⟨hidx, hpar⟩ := sameTopology_fields h i h1 hi
  obtain ⟨hidx1, hpar1⟩ := hc.2 i h1
  exact ⟨hidx ▸ hidx1, hpar ▸ hpar1⟩

theorem gStructContrib_ext [CommRing F] (n1 n2 : CNode F)
    (hi : n1.index = n2.index) (hp : n1.parent = n2.parent) (a b k : Nat) :
    gStructContrib n1 a b k = gStructContrib n2 a b k := by
  unfold gStructContrib
  rw [hi, hp]

/-- The conductance structure tensor depends only on the topology. -/
theorem toStructureTensorG_congr [CommRing F] {t1 t2 : List (CNode F)}
    (h : sameTopology t1 t2) (a b k : Nat) :
    toStructureTensorG t1 a b k = toStructureTensorG t2 a b k := by
  have hlen := sameTopology_length h
  rw [toStructureTensorG_apply, toStructureTensorG_apply,
    list_map_sum_eq_sum_get, list_map_sum_eq_sum_get]
  refine Finset.sum_nbij' (fun i => Fin.cast hlen i)
    (fun i => Fin.cast hlen.symm i) (fun _ _ => Finset.mem_univ _)
    (fun _ _ => Finset.mem_univ _) (fun i _ => Fin.ext rfl)
    (fun i _ => Fin.ext rfl) (fun i _ => ?_)
  obtain ⟨hidx, hpar⟩ := sameTopology_fields h i.val i.isLt
    (hlen ▸ i.isLt)
  exact gStructContrib_ext _ _ hidx hpar a b k

theorem gContrib_ext [CommRing F] (n1 n2 : CNode F)
    (hi : n1.index = n2.index) (hp : n1.parent = n2.parent)
    (hgc : n1.g_c = n2.g_c) (hgl : n1.g_l = n2.g_l) (a b : Nat) :
    gContrib n1 a b = gContrib n2 a b := by
  unfold gContrib
  rw [hi, hp, hgc, hgl]

/-- The conductance matrix depends only on index, parent, `g_c`, `g_l`. -/
theorem calcConductanceMatrix_congr [CommRing F] {t1 t2 : List (CNode F)}
    (hlen : t1.length = t2.length)
    (hf : ∀ i (h1 : i < t1.length) (h2 : i < t2.length),
      (t1.get ⟨i, h1⟩).index = (t2.get ⟨i, h2⟩).index
        ∧ (t1.get ⟨i, h1⟩).parent = (t2.get ⟨i, h2⟩).parent
        ∧ (t1.get ⟨i, h1⟩).g_c = (t2.get ⟨i, h2⟩).g_c
        ∧ (t1.get ⟨i, h1⟩).g_l = (t2.get ⟨i, h2⟩).g_l) (a b : Nat) :
    calcConductanceMatrix t1 a b = calcConductanceMatrix t2 a b := by
  rw [calcConductanceMatrix_apply, calcConductanceMatrix_apply,
    list_map_sum_eq_sum_get, list_map_sum_eq_sum_get]
  refine Finset.sum_nbij' (fun i => Fin.cast hlen i)
    (fun i => Fin.cast hlen.symm i) (fun _ _ => Finset.mem_univ _)
    (fun _ _ => Finset.mem_univ _) (fun i _ => Fin.ext rfl)
    (fun i _ => Fin.ext rfl) (fun i _ => ?_)
  obtain ⟨h1, h2, h3, h4⟩ := hf i.val i.isLt (hlen ▸ i.isLt)
  exact gContrib_ext _ _ h1 h2 h3 h4 a b

theorem extendVec_lt {p : Nat} [Zero F] (v : Fin p → F) (K : Nat)
    (hK : K < p) : extendVec v K = v ⟨K, hK⟩ :=
  dif_pos hK

/-- Slot-selector contraction, stated with the totalised parameter vector
(no in-range side condition). -/
theorem sum_mul_ite_slot' {p : Nat} [CommRing F] (v : Fin p → F)
    (P1 P2 : Prop) [Decidable P1] [Decidable P2] (K : Nat) (c : F) :
    (∑ k : Fin p, v k * if P1 ∧ P2 ∧ k.val = K then c else 0)
      = if P1 ∧ P2 then c * extendVec v K else 0 := by
  by_cases hK : K < p
  · rw [sum_mul_ite_slot v P1 P2 K hK c, extendVec_lt v K hK]
  · have hz : ∀ k : Fin p, (v k * if P1 ∧ P2 ∧ k.val = K then c else 0)
        = 0 := by
      intro k
      have : ¬ (P1 ∧ P2 ∧ k.val = K) := by
        rintro ⟨-, -, rfl⟩
        exact hK k.isLt
      simp [this]
    rw [Finset.sum_congr rfl (fun k _ => hz k)]
    have : extendVec v K = 0 := dif_neg hK
    simp [this]

/-- Kernel triviality of the conductance structure tensor on canonical
trees: a parameter vector whose contraction with every tensor slice
vanishes is zero. -/
theorem slice_independence [CommRing F] (t : List (CNode F))
    (hc : canonical t) (v : Fin (toVecG t).length → F)
    (hv : ∀ a b : Fin t.length,
      (∑ k : Fin (toVecG t).length,
        v k * toStructureTensorG t a.val b.val k.val) = 0) :
    v = 0 := by
  have hp : (toVecG t).length = 2 * t.length - 1 :=
    toVecG_length_canonical t hc
  have hn : 0 < t.length := hc.1
  have hidx : ∀ m : Fin t.length, (t.get m).index = m.val :=
    fun m => canonical_index t hc m.val m.isLt
  have hcontract : ∀ a b : Nat,
      (∑ k : Fin (toVecG t).length, v k * toStructureTensorG t a b k.val)
        = ∑ i : Fin t.length, ∑ k : Fin (toVecG t).length,
            v k * gStructContrib (t.get i) a b k.val := by
    intro a b
    rw [← Finset.sum_comm]
    refine Finset.sum_congr rfl (fun k _ => ?_)
    rw [toStructureTensorG_apply, list_map_sum_eq_sum_get, Finset.mul_sum]
  have hrootsum : ∀ (a b : Nat) (i : Fin t.length), i.val = 0 →
      (∑ k : Fin (toVecG t).length,
        v k * gStructContrib (t.get i) a b k.val)
        = if a = 0 ∧ b = 0 then extendVec v 0 else 0 := by
    intro a b i hi0
    have hi : i = ⟨0, hn⟩ := Fin.ext hi0
    subst hi
    have hparent : (t.get ⟨0, hn⟩).parent = none :=
      canonical_root_parent t hc hn
    calc (∑ k : Fin (toVecG t).length,
            v k * gStructContrib (t.get ⟨0, hn⟩) a b k.val)
        = ∑ k : Fin (toVecG t).length,
            v k * if a = 0 ∧ b = 0 ∧ k.val = 0 then 1 else 0 := by
          refine Finset.sum_congr rfl (fun k _ => ?_)
          rw [gStructContrib_root _ hparent]
      _ = if a = 0 ∧ b = 0 then extendVec v 0 else 0 := by
          rw [sum_mul_ite_slot' v _ _ 0 1]
          by_cases hab : a = 0 ∧ b = 0 <;> simp [hab]
  have hchildsum : ∀ (a b : Nat) (i : Fin t.length) (pp : Nat),
      (t.get i).parent = some pp →
      (∑ k : Fin (toVecG t).length,
        v k * gStructContrib (t.get i) a b k.val)
        = (if a = i.val ∧ b = pp
             then -extendVec v (2 * i.val - 1) else 0)
          + ((if a = pp ∧ b = i.val
             then -extendVec v (2 * i.val - 1) else 0)
          + ((if a = pp ∧ b = pp then extendVec v (2 * i.val - 1) else 0)
          + ((if a = i.val ∧ b = i.val
             then extendVec v (2 * i.val - 1) else 0)
          + (if a = i.val ∧ b = i.val then extendVec v (2 * i.val)
             else 0)))) := by
    intro a b i pp hpp
    calc (∑ k : Fin (toVecG t).length,
            v k * gStructContrib (t.get i) a b k.val)
        = ∑ k : Fin (toVecG t).length,
            (v k * (if a = i.val ∧ b = pp ∧ k.val = 2 * i.val - 1 then -1
                    else 0)
              + (v k * (if a = pp ∧ b = i.val ∧ k.val = 2 * i.val - 1
                    then -1 else 0)
              + (v k * (if a = pp ∧ b = pp ∧ k.val = 2 * i.val - 1 then 1
                    else 0)
              + (v k * (if a = i.val ∧ b = i.val ∧ k.val = 2 * i.val - 1
                    then 1 else 0)
              + v k * (if a = i.val ∧ b = i.val ∧ k.val = 2 * i.val then 1
                    else 0))))) := by
          refine Finset.sum_congr rfl (fun k _ => ?_)
          rw [gStructContrib_child _ pp hpp, hidx i]
          ring
      _ = _ := by
          rw [Finset.sum_add_distrib, Finset.sum_add_distrib,
            Finset.sum_add_distrib, Finset.sum_add_distrib,
            sum_mul_ite_slot' v _ _ _ (-1), sum_mul_ite_slot' v _ _ _ (-1),
            sum_mul_ite_slot' v _ _ _ 1, sum_mul_ite_slot' v _ _ _ 1,
            sum_mul_ite_slot' v _ _ _ 1]
          by_cases h1 : a = i.val ∧ b = pp <;>
            by_cases h2 : a = pp ∧ b = i.val <;>
            by_cases h3 : a = pp ∧ b = pp <;>
            by_cases h4 : a = i.val ∧ b = i.val <;>
            simp [h1, h2, h3, h4]
  have hcoup : ∀ m, 0 < m → m < t.length →
      extendVec v (2 * m - 1) = 0 := by
    intro m hm0 hmn
    obtain ⟨jj, hjj, hjlt⟩ := canonical_parent_pos t hc m hmn hm0
    have h0 := hv ⟨m, hmn⟩ ⟨jj, lt_trans hjlt hmn⟩
    rw [hcontract] at h0
    have heval : ∀ i : Fin t.length,
        (∑ k : Fin (toVecG t).length,
          v k * gStructContrib (t.get i) m jj k.val)
          = if m = i.val then -extendVec v (2 * m - 1) else 0 := by
      intro i
      by_cases hi0 : i.val = 0
      · rw [hrootsum m jj i hi0,
          if_neg (by omega : ¬ (m = 0 ∧ jj = 0)),
          if_neg (by omega : ¬ m = i.val)]
      · have hipos : 0 < i.val := Nat.pos_of_ne_zero hi0
        obtain ⟨pp, hpp, hpplt⟩ :=
          canonical_parent_pos t hc i.val i.isLt hipos
        rw [hchildsum m jj i pp hpp]
        by_cases him : m = i.val
        · have hppjj : pp = jj := by
            have hsame : t.get i = t.get ⟨m, hmn⟩ := by
              congr 1
              exact Fin.ext him.symm
            rw [hsame, hjj] at hpp
            exact (Option.some_injective _ hpp).symm
          rw [if_pos ⟨him, hppjj.symm⟩,
            if_neg (by omega : ¬ (m = pp ∧ jj = i.val)),
            if_neg (by omega : ¬ (m = pp ∧ jj = pp)),
            if_neg (by omega : ¬ (m = i.val ∧ jj = i.val)),
            if_neg (by omega : ¬ (m = i.val ∧ jj = i.val)),
            if_pos him, ← him]
          ring
        · rw [if_neg (fun hcon => him hcon.1),
            if_neg (by omega : ¬ (m = pp ∧ jj = i.val)),
            if_neg (by omega : ¬ (m = pp ∧ jj = pp)),
            if_neg (fun hcon => him hcon.1),
            if_neg (fun hcon => him hcon.1),
            if_neg him]
          ring
    rw [Finset.sum_congr rfl (fun i _ => heval i),
      sum_ite_index t.length (fun _ => -extendVec v (2 * m - 1)) m hmn]
      at h0
    exact neg_eq_zero.mp h0
  have hleak : ∀ m, m < t.length → extendVec v (2 * m) = 0 := by
    intro m hmn
    have h0 := hv ⟨m, hmn⟩ ⟨m, hmn⟩
    rw [hcontract] at h0
    have heval : ∀ i : Fin t.length,
        (∑ k : Fin (toVecG t).length,
          v k * gStructContrib (t.get i) m m k.val)
          = if m = i.val then extendVec v (2 * m) else 0 := by
      intro i
      by_cases hi0 : i.val = 0
      · rw [hrootsum m m i hi0]
        by_cases hm0 : m = 0
        · subst hm0
          simp [hi0]
        · rw [if_neg (fun hcon => hm0 hcon.1),
            if_neg (by omega : ¬ m = i.val)]
      · have hipos : 0 < i.val := Nat.pos_of_ne_zero hi0
        obtain ⟨pp, hpp, hpplt⟩ :=
          canonical_parent_pos t hc i.val i.isLt hipos
        rw [hchildsum m m i pp hpp, hcoup i.val hipos i.isLt]
        by_cases him : m = i.val
        · subst him
          simp
        · simp [him]
    rw [Finset.sum_congr rfl (fun i _ => heval i),
      sum_ite_index t.length (fun _ => extendVec v (2 * m)) m hmn] at h0
    exact h0
  funext l
  have hl : l.val < 2 * t.length - 1 := hp ▸ l.isLt
  rcases Nat.even_or_odd l.val with ⟨m, hm⟩ | ⟨m, hm⟩
  · have hmn : m < t.length := by omega
    have := hleak m hmn
    rw [show 2 * m = l.val by omega, extendVec_lt v l.val l.isLt] at this
    simpa using this
  · have hm1 : l.val = 2 * (m + 1) - 1 := by omega
    have hmn : m + 1 < t.length := by omega
    have := hcoup (m + 1) (Nat.succ_pos m) hmn
    rw [← hm1, extendVec_lt v l.val l.isLt] at this
    simpa using this

theorem list_getD_lt (l : List F) [Zero F] (K : Nat) (hK : K < l.length) :
    l.getD K 0 = l.get ⟨K, hK⟩ := by
  rw [List.getD_eq_getElem?_getD, List.getElem?_eq_getElem hK]
  rfl

theorem computeG_get [Field F] [StarRing F] (t : List (CNode F))
    (z : Matrix (Fin t.length) (Fin t.length) F) (i : Nat)
    (h : i < t.length) (h' : i < (computeG t z).length) :
    (computeG t z).get ⟨i, h'⟩
      = match (t.get ⟨i, h⟩).parent with
        | none =>
            { t.get ⟨i, h⟩ with
                g_l := if hk : i < (toVecG t).length
                  then lstsq (featureG t z) (targetIdVec t.length) ⟨i, hk⟩
                  else 0 }
        | some _ =>
            { t.get ⟨i, h⟩ with
                g_c := if hk : 2 * i - 1 < (toVecG t).length
                  then lstsq (featureG t z) (targetIdVec t.length)
                    ⟨2 * i - 1, hk⟩
                  else 0,
                g_l := if hk : 2 * i < (toVecG t).length
                  then lstsq (featureG t z) (targetIdVec t.length)
                    ⟨2 * i, hk⟩
                  else 0 } :=
  toTreeG_get t _ i h h'

/-- Exactness of the conductance fit: on canonical equal-topology trees,
`computeG` run on the fresh tree against the exact steady-state impedance
of the source tree recovers the source tree's `g_l` at every node and its
`g_c` at every non-root node. -/
theorem computeG_recovers {F : Type*} [Field F] [StarRing F]
    [PartialOrder F] [StarOrderedRing F] (t tf : List (CNode F))
    (hc : canonical t) (hcf : canonical tf) (htopo : sameTopology t tf)
    (hroot : ∀ node ∈ t, node.parent = none → node.g_c = 0)
    (Z : Matrix (Fin tf.length) (Fin tf.length) F)
    (hZ : toMat tf.length (calcConductanceMatrix t) * Z = 1) :
    ∀ i (h : i < t.length) (h' : i < (computeG tf Z).length),
      ((computeG tf Z).get ⟨i, h'⟩).g_l = (t.get ⟨i, h⟩).g_l
        ∧ (0 < i →
            ((computeG tf Z).get ⟨i, h'⟩).g_c = (t.get ⟨i, h⟩).g_c) := by
  have hlen : t.length = tf.length := sameTopology_length htopo
  have hZG : Z * toMat tf.length (calcConductanceMatrix t) = 1 :=
    Matrix.mul_eq_one_comm.mp hZ
  have hplen : (toVecG t).length = (toVecG tf).length := by
    rw [toVecG_length_canonical t hc, toVecG_length_canonical tf hcf, hlen]
  set vstar : Fin (toVecG tf).length → F :=
    fun l => (toVecG t).getD l.val 0 with hvstar
  have hAu : ∀ (u : Fin (toVecG tf).length → F)
      (ik : Fin tf.length × Fin tf.length),
      (featureG tf Z).mulVec u ik
        = ∑ j : Fin tf.length, Z ik.1 j *
            (∑ l : Fin (toVecG tf).length,
              u l * toStructureTensorG tf j.val ik.2.val l.val) := by
    intro u ik
    calc (featureG tf Z).mulVec u ik
        = ∑ l : Fin (toVecG tf).length,
            (∑ j : Fin tf.length,
              Z ik.1 j * toStructureTensorG tf j.val ik.2.val l.val)
              * u l := by
          rw [Matrix.mulVec, Matrix.dotProduct]
          rfl
      _ = ∑ l : Fin (toVecG tf).length, ∑ j : Fin tf.length,
            Z ik.1 j * toStructureTensorG tf j.val ik.2.val l.val
              * u l := by
          refine Finset.sum_congr rfl (fun l _ => ?_)
          rw [Finset.sum_mul]
      _ = ∑ j : Fin tf.length, ∑ l : Fin (toVecG tf).length,
            Z ik.1 j * toStructureTensorG tf j.val ik.2.val l.val
              * u l := Finset.sum_comm
      _ = _ := by
          refine Finset.sum_congr rfl (fun j _ => ?_)
          rw [Finset.mul_sum]
          refine Finset.sum_congr rfl (fun l _ => ?_)
          ring
  have hrecon : ∀ (u : Fin (toVecG tf).length → F) (j k : Fin tf.length),
      u = vstar →
      (∑ l : Fin (toVecG tf).length,
        u l * toStructureTensorG tf j.val k.val l.val)
        = calcConductanceMatrix t j.val k.val := by
    rintro u j k rfl
    have hstep1 : ∀ l : Fin (toVecG tf).length,
        vstar l * toStructureTensorG tf j.val k.val l.val
          = vstar l * toStructureTensorG t j.val k.val l.val := by
      intro l
      rw [toStructureTensorG_congr htopo]
    rw [Finset.sum_congr rfl (fun l _ => hstep1 l)]
    have hreindex : (∑ l : Fin (toVecG tf).length,
        vstar l * toStructureTensorG t j.val k.val l.val)
        = ∑ l : Fin (toVecG t).length,
            (toVecG t).get l * toStructureTensorG t j.val k.val l.val := by
      refine Finset.sum_nbij' (fun l => Fin.cast hplen.symm l)
        (fun l => Fin.cast hplen l) (fun _ _ => Finset.mem_univ _)
        (fun _ _ => Finset.mem_univ _) (fun l _ => Fin.ext rfl)
        (fun l _ => Fin.ext rfl) (fun l _ => ?_)
      have hlt : l.val < (toVecG t).length := by
        have := l.isLt
        omega
      rw [hvstar]
      simp only []
      rw [list_getD_lt _ _ hlt]
      rfl
    rw [hreindex]
    exact reconstruction_canonical t hc hroot j.val k.val
  have hconsist : (featureG tf Z).mulVec vstar = targetIdVec tf.length := by
    funext ik
    rw [hAu]
    rw [Finset.sum_congr rfl
      (fun j _ => by rw [hrecon vstar j ik.2 rfl])]
    have hmm : (∑ j : Fin tf.length,
        Z ik.1 j * calcConductanceMatrix t j.val ik.2.val)
        = (Z * toMat tf.length (calcConductanceMatrix t)) ik.1 ik.2 := by
      rw [Matrix.mul_apply]
      rfl
    rw [hmm, hZG, Matrix.one_apply]
    rfl
  have hker : ∀ u, (featureG tf Z).mulVec u = 0 → u = 0 := by
    intro u hu
    set M : Matrix (Fin tf.length) (Fin tf.length) F :=
      Matrix.of (fun j k =>
        ∑ l : Fin (toVecG tf).length,
          u l * toStructureTensorG tf j.val k.val l.val) with hM
    have hZM : Z * M = 0 := by
      ext i k
      have hcf2 := congrFun hu (i, k)
      rw [hAu] at hcf2
      rw [Matrix.mul_apply]
      simpa [hM] using hcf2
    have hM0 : M = 0 := by
      calc M = 1 * M := (Matrix.one_mul M).symm
        _ = (toMat tf.length (calcConductanceMatrix t) * Z) * M := by
            rw [hZ]
        _ = toMat tf.length (calcConductanceMatrix t) * (Z * M) :=
            Matrix.mul_assoc _ _ _
        _ = 0 := by rw [hZM, Matrix.mul_zero]
    refine slice_independence tf hcf u (fun a b => ?_)
    have := congrFun (congrFun (congrArg (fun X i j => X i j) hM0) a) b
    simpa [hM] using this
  have hsol : lstsq (featureG tf Z) (targetIdVec tf.length) = vstar :=
    lstsq_exact _ _ vstar hker hconsist
  intro i h h'
  have hi' : i < tf.length := hlen ▸ h
  have hfieldsEq := sameTopology_fields htopo i h hi'
  rw [computeG_get tf Z i hi' h', hsol]
  by_cases hi0 : i = 0
  · subst hi0
    have hpar : (tf.get ⟨0, hi'⟩).parent = none :=
      canonical_root_parent tf hcf (hlen ▸ hc.1)
    rw [hpar]
    have h0p : 0 < (toVecG tf).length := by
      rw [toVecG_length_canonical tf hcf]
      have := hcf.1
      omega
    refine ⟨?_, fun hcon => absurd hcon (lt_irrefl 0)⟩
    simp only [dif_pos h0p, hvstar]
    have h0pt : 0 < (toVecG t).length := by omega
    rw [list_getD_lt _ _ h0pt,
      toVecG_get_of_get? t 0 h0pt _ (toVecG_get?_zero t hc)]
  · have hipos : 0 < i := Nat.pos_of_ne_zero hi0
    obtain ⟨jj, hjj, _⟩ := canonical_parent_pos tf hcf i hi' hipos
    rw [hjj]
    have hK1 : 2 * i - 1 < (toVecG tf).length := by
      rw [toVecG_length_canonical tf hcf]
      omega
    have hK2 : 2 * i < (toVecG tf).length := by
      rw [toVecG_length_canonical tf hcf]
      omega
    have hK1t : 2 * i - 1 < (toVecG t).length := by omega
    have hK2t : 2 * i < (toVecG t).length := by omega
    refine ⟨?_, fun _ => ?_⟩
    · simp only [dif_pos hK2, hvstar]
      rw [list_getD_lt _ _ hK2t,
        toVecG_get_of_get? t _ hK2t _ (toVecG_get?_gl t hc i h hipos)]
    · simp only [dif_pos hK1, hvstar]
      rw [list_getD_lt _ _ hK1t,
        toVecG_get_of_get? t _ hK1t _ (toVecG_get?_gc t hc i h hipos)]

/-- Exactness of the capacitance fit: run on a canonical tree `tg` whose
conductance matrix already equals that of the source tree `t`, against the
exact impedance slices of `t` and at least one nonzero frequency,
`computeC` writes the source tree's `ca` to every node. -/
theorem computeC_recovers {R C : Type*} [CommRing R] [Field C]
    [StarRing C] [PartialOrder C] [StarOrderedRing C] (phi : R →+* C)
    (re : C → R) (hre : ∀ x : R, re (phi x) = x) (t tg : List (CNode R))
    (hc : canonical t) (hcg : canonical tg) (htopo : sameTopology t tg)
    (hG : ∀ a b : Nat,
      calcConductanceMatrix tg a b = calcConductanceMatrix t a b)
    (freqs : List C)
    (zf : Fin freqs.length → Matrix (Fin tg.length) (Fin tg.length) C)
    (hzf : ∀ f : Fin freqs.length,
      toMat tg.length (systemSlice phi t (freqs.get f)) * zf f = 1)
    (hfreq : ∃ f : Fin freqs.length, freqs.get f ≠ 0) :
    ∀ i (h : i < t.length) (h' : i < (computeC phi re tg freqs zf).length),
      ((computeC phi re tg freqs zf).get ⟨i, h'⟩).ca
        = (t.get ⟨i, h⟩).ca := by
  have hlen : t.length = tg.length := sameTopology_length htopo
  set vstarC : Fin tg.length → C :=
    fun l => phi ((t.get (Fin.cast hlen.symm l)).ca) with hvstarC
  have hgetD : ∀ f : Fin freqs.length, freqs.getD f.val 0 = freqs.get f :=
    fun f => by rw [list_getD_lt freqs f.val f.isLt]
  have hA : ∀ (fik : Fin freqs.length × Fin tg.length × Fin tg.length)
      (l : Fin tg.length),
      featureC tg freqs zf fik l
        = if fik.2.2 = l
          then zf fik.1 fik.2.1 fik.2.2 * freqs.get fik.1 else 0 := by
    intro fik l
    rw [featureC, Matrix.of_apply]
    rw [Finset.sum_congr rfl (fun j _ => by
      rw [toStructureTensorC_canonical tg hcg freqs])]
    rw [Finset.sum_eq_single fik.2.2]
    · rw [capTensorSpec]
      by_cases hkl : fik.2.2 = l
      · rw [if_pos hkl,
          if_pos ⟨rfl, by rw [hkl], fik.2.2.isLt⟩, hgetD]
      · rw [if_neg hkl, if_neg (fun hcon => hkl (Fin.ext hcon.2.1)),
          mul_zero]
    · intro j _ hj
      rw [capTensorSpec,
        if_neg (fun hcon => hj (Fin.ext hcon.1)), mul_zero]
    · intro hmem
      exact absurd (Finset.mem_univ _) hmem
  have hAmul : ∀ (w : Fin tg.length → C)
      (fik : Fin freqs.length × Fin tg.length × Fin tg.length),
      (featureC tg freqs zf).mulVec w fik
        = zf fik.1 fik.2.1 fik.2.2 * freqs.get fik.1 * w fik.2.2 := by
    intro w fik
    rw [Matrix.mulVec, Matrix.dotProduct]
    rw [Finset.sum_congr rfl (fun l _ => by rw [hA fik l])]
    rw [Finset.sum_eq_single fik.2.2]
    · rw [if_pos rfl]
    · intro l _ hl
      rw [if_neg (Ne.symm hl), zero_mul]
    · intro hmem
      exact absurd (Finset.mem_univ _) hmem
  have hslice : ∀ (f : Fin freqs.length) (j k : Fin tg.length),
      toMat tg.length (systemSlice phi t (freqs.get f)) j k
        = phi (calcConductanceMatrix t j.val k.val)
          + (if j = k
             then freqs.get f * phi ((t.get (Fin.cast hlen.symm k)).ca)
             else 0) := by
    intro f j k
    rw [toMat, Matrix.of_apply,
      systemSlice_canonical phi t hc (freqs.get f) j.val k.val]
    by_cases hjk : j = k
    · rw [dif_pos ⟨congrArg Fin.val hjk, by omega⟩, if_pos hjk]
      subst hjk
      rfl
    · rw [dif_neg (fun hcon => hjk (Fin.ext hcon.1)), if_neg hjk]
  have hzf2 : ∀ f : Fin freqs.length,
      zf f * toMat tg.length (systemSlice phi t (freqs.get f)) = 1 :=
    fun f => Matrix.mul_eq_one_comm.mp (hzf f)
  have hconsist : (featureC tg freqs zf).mulVec vstarC
      = targetC phi tg freqs zf := by
    funext fik
    obtain ⟨f, i, k⟩ := fik
    rw [hAmul]
    have hone := congrFun (congrFun (congrArg (fun X a b => X a b)
      (hzf2 f)) i) k
    simp only [Matrix.mul_apply] at hone
    rw [Finset.sum_congr rfl (fun j _ => by rw [hslice f j k])] at hone
    have hsplit : (∑ j : Fin tg.length,
        zf f i j * (phi (calcConductanceMatrix t j.val k.val)
          + (if j = k
             then freqs.get f * phi ((t.get (Fin.cast hlen.symm k)).ca)
             else 0)))
        = (∑ j : Fin tg.length,
            zf f i j * phi (calcConductanceMatrix t j.val k.val))
          + zf f i k * (freqs.get f
              * phi ((t.get (Fin.cast hlen.symm k)).ca)) := by
      rw [Finset.sum_congr rfl (fun j _ => mul_add _ _ _),
        Finset.sum_add_distrib]
      congr 1
      rw [Finset.sum_eq_single k]
      · rw [if_pos rfl]
      · intro j _ hj
        rw [if_neg hj, mul_zero]
      · intro hmem
        exact absurd (Finset.mem_univ _) hmem
    rw [hsplit] at hone
    rw [targetC]
    simp only []
    have hGtg : ∀ j : Fin tg.length,
        zf f i j * phi (calcConductanceMatrix tg j.val k.val)
          = zf f i j * phi (calcConductanceMatrix t j.val k.val) :=
      fun j => by rw [hG]
    rw [Finset.sum_congr rfl (fun j _ => hGtg j)]
    rw [show (if i = k then (1 : C) else 0)
        = (1 : Matrix (Fin tg.length) (Fin tg.length) C) i k from
        (Matrix.one_apply).symm, ← hone, hvstarC]
    ring
  have hker : ∀ w, (featureC tg freqs zf).mulVec w = 0 → w = 0 := by
    intro w hw
    obtain ⟨f0, hf0⟩ := hfreq
    funext k
    by_contra hwk
    have hcol : ∀ i : Fin tg.length, zf f0 i k = 0 := by
      intro i
      have := congrFun hw (f0, i, k)
      rw [hAmul] at this
      simp only [Pi.zero_apply] at this
      rcases mul_eq_zero.mp this with hz | hz
      · rcases mul_eq_zero.mp hz with hz2 | hz2
        · exact hz2
        · exact absurd hz2 hf0
      · exact absurd hz hwk
    have hone := congrFun (congrFun (congrArg (fun X a b => X a b)
      (hzf f0)) k) k
    simp only [Matrix.mul_apply] at hone
    rw [Finset.sum_congr rfl (fun j _ => by
      rw [hcol j, mul_zero])] at hone
    rw [Matrix.one_apply_eq] at hone
    simp at hone
  have hsol : lstsq (featureC tg freqs zf) (targetC phi tg freqs zf)
      = vstarC :=
    lstsq_exact _ _ vstarC hker hconsist
  intro i h h'
  have hig : i < tg.length := hlen ▸ h
  rw [computeC_get phi re tg freqs zf i hig h']
  simp only [dif_pos hig, hsol, hvstarC]
  rw [hre]
  rfl

/-- C1.  Round-trip fit law.  Let `t` be a canonical compartment tree with
positive parameters (`g_l`, `ca` everywhere, `g_c` off the root; root
`g_c = 0`), and `tf` a placeholder tree of the same topology (root
`g_c = 0`).  Let `Z` be the exact steady-state impedance matrix (two-sided
inverse of the conductance matrix of `t` — its existence is what "computing
the exact impedance" presupposes), and `zf` the exact impedance slices of
`t` over a frequency array containing at least one nonzero frequency.
Then `computeG(Z)` followed by `computeC(freqs, zf)` on `tf` recovers the
original `g_l`, `g_c` and `ca` of every node exactly (hence a fortiori
within any numerical tolerance such as `1e-8` relative). -/
theorem fit_roundtrip_exact (t tf : List (CNode ℝ)) (hc : canonical t)
    (hcf : canonical tf) (htopo : sameTopology t tf)
    (hposl : ∀ node ∈ t, 0 < node.g_l)
    (hposca : ∀ node ∈ t, 0 < node.ca)
    (hposc : ∀ node ∈ t, node.parent ≠ none → 0 < node.g_c)
    (hroot : ∀ node ∈ t, node.parent = none → node.g_c = 0)
    (hrootf : ∀ node ∈ tf, node.parent = none → node.g_c = 0)
    (Z : Matrix (Fin tf.length) (Fin tf.length) ℝ)
    (hZ : toMat tf.length (calcConductanceMatrix t) * Z = 1)
    (freqs : List ℂ)
    (zf : Fin freqs.length → Matrix (Fin (computeG tf Z).length)
      (Fin (computeG tf Z).length) ℂ)
    (hzf : ∀ f : Fin freqs.length,
      toMat (computeG tf Z).length
          (systemSlice Complex.ofRealHom t (freqs.get f)) * zf f = 1)
    (hfreq : ∃ f : Fin freqs.length, freqs.get f ≠ 0) :
    ∀ i (h : i < t.length)
      (h' : i < (computeC Complex.ofRealHom Complex.re (computeG tf Z)
        freqs zf).length),
      ((computeC Complex.ofRealHom Complex.re (computeG tf Z) freqs
          zf).get ⟨i, h'⟩).g_l = (t.get ⟨i, h⟩).g_l
        ∧ ((computeC Complex.ofRealHom Complex.re (computeG tf Z) freqs
            zf).get ⟨i, h'⟩).g_c = (t.get ⟨i, h⟩).g_c
        ∧ ((computeC Complex.ofRealHom Complex.re (computeG tf Z) freqs
            zf).get ⟨i, h'⟩).ca = (t.get ⟨i, h⟩).ca := by
  have hlen_ttf : t.length = tf.length := sameTopology_length htopo
  have hlen_tg : (computeG tf Z).length = tf.length := computeG_length tf Z
  have hpres : ∀ i (h1 : i < tf.length)
      (h2 : i < (computeG tf Z).length),
      ((computeG tf Z).get ⟨i, h2⟩).index = (tf.get ⟨i, h1⟩).index
        ∧ ((computeG tf Z).get ⟨i, h2⟩).parent = (tf.get ⟨i, h1⟩).parent
        ∧ ((computeG tf Z).get ⟨i, h2⟩).ca = (tf.get ⟨i, h1⟩).ca :=
    fun i h1 h2 => toTreeG_preserves tf _ i h1 h2
  have htopo_fg : sameTopology tf (computeG tf Z) :=
    sameTopology_of_fields hlen_tg.symm
      (fun i h1 h2 => ⟨(hpres i h1 h2).1.symm, (hpres i h1 h2).2.1.symm⟩)
  have htopo_tg : sameTopology t (computeG tf Z) := htopo.trans htopo_fg
  have hcg : canonical (computeG tf Z) :=
    canonical_of_sameTopology htopo_tg hc
  have hrec := computeG_recovers t tf hc hcf htopo hroot Z hZ
  have hgl_all : ∀ i (h : i < t.length)
      (h2 : i < (computeG tf Z).length),
      ((computeG tf Z).get ⟨i, h2⟩).g_l = (t.get ⟨i, h⟩).g_l :=
    fun i h h2 => (hrec i h h2).1
  have hgc_all : ∀ i (h : i < t.length)
      (h2 : i < (computeG tf Z).length),
      ((computeG tf Z).get ⟨i, h2⟩).g_c = (t.get ⟨i, h⟩).g_c := by
    intro i h h2
    by_cases hi0 : 0 < i
    · exact (hrec i h h2).2 hi0
    · have hi00 : i = 0 := by omega
      subst hi00
      have hif : 0 < tf.length := hlen_ttf ▸ hc.1
      have hparf : (tf.get ⟨0, hif⟩).parent = none :=
        canonical_root_parent tf hcf hif
      have hgct : (t.get ⟨0, h⟩).g_c = 0 :=
        hroot _ (List.get_mem t 0 h) (canonical_root_parent t hc h)
      have hgcf : (tf.get ⟨0, hif⟩).g_c = 0 :=
        hrootf _ (List.get_mem tf 0 hif) hparf
      rw [computeG_get tf Z 0 hif h2, hparf, hgct]
      exact hgcf
  have hGeq : ∀ a b : Nat,
      calcConductanceMatrix (computeG tf Z) a b
        = calcConductanceMatrix t a b := by
    intro a b
    refine calcConductanceMatrix_congr (by omega)
      (fun i h1 h2 => ?_) a b
    obtain ⟨hidx, hpar⟩ := sameTopology_fields htopo_tg i h2 h1
    exact ⟨hidx.symm, hpar.symm, hgc_all i h2 h1, hgl_all i h2 h1⟩
  have hca := computeC_recovers Complex.ofRealHom Complex.re
    (fun x => Complex.ofReal_re x) t (computeG tf Z) hc hcg htopo_tg hGeq
    freqs zf hzf hfreq
  intro i h h'
  have h2 : i < (computeG tf Z).length := by omega
  have hpresC := toTreeC_preserves (computeG tf Z) _ i h2 h'
  refine ⟨?_, ?_, hca i h h'⟩
  · have := hpresC.2.2.1
    exact this.trans (hgl_all i h h2)
  · have := hpresC.2.2.2
    exact this.trans (hgc_all i h h2)

theorem exTreeTrue_canonical : canonical exTreeTrue := by
  constructor
  · norm_num [exTreeTrue]
  · intro i hlen
    have hi2 : i < 2 := by simpa [exTreeTrue] using hlen
    interval_cases i <;> simp [exTreeTrue, parentOk]

theorem exTreeFresh_canonical : canonical exTreeFresh := by
  constructor
  · norm_num [exTreeFresh]
  · intro i hlen
    have hi2 : i < 2 := by simpa [exTreeFresh] using hlen
    interval_cases i <;> simp [exTreeFresh, parentOk]

theorem exTopology : sameTopology exTreeTrue exTreeFresh := by
  norm_num [sameTopology, exTreeTrue, exTreeFresh]

theorem exZ_inverse :
    toMat 2 (calcConductanceMatrix exTreeTrue) * exZ = 1 := by
  ext i j
  fin_cases i <;> fin_cases j <;>
    (rw [Matrix.mul_apply, Fin.sum_univ_two]
     simp [toMat, exZ, calcConductanceMatrix_apply, exTreeTrue, gContrib,
       Matrix.one_apply]
     norm_num)

theorem exZf_inverse :
    toMat 2 (systemSlice Complex.ofRealHom exTreeTrue 1) * exZf 0 = 1 := by
  ext i j
  fin_cases i <;> fin_cases j <;>
    (rw [Matrix.mul_apply, Fin.sum_univ_two]
     simp [toMat, exZf, systemSlice_apply, calcConductanceMatrix_apply,
       exTreeTrue, gContrib, Matrix.one_apply]
     push_cast
     norm_num [Complex.ext_iff])

/-- C1 witness: on the claim's concrete two-node example, the conductance
matrix is `[[0.03, -0.02], [-0.02, 0.03]]`, and running `computeG` with its
exact inverse followed by `computeC` at frequency 1 with the exact
impedance slice recovers `g_l`, `g_c`, `ca` of both nodes exactly. -/
theorem fit_roundtrip_exact_witness :
    (calcConductanceMatrix exTreeTrue 0 0 = 3/100
      ∧ calcConductanceMatrix exTreeTrue 0 1 = -(2/100)
      ∧ calcConductanceMatrix exTreeTrue 1 0 = -(2/100)
      ∧ calcConductanceMatrix exTreeTrue 1 1 = 3/100)
    ∧ ∀ i (h : i < exTreeTrue.length)
        (h' : i < (computeC Complex.ofRealHom Complex.re
          (computeG exTreeFresh exZ) [(1 : ℂ)] exZf).length),
        ((computeC Complex.ofRealHom Complex.re (computeG exTreeFresh exZ)
            [(1 : ℂ)] exZf).get ⟨i, h'⟩).g_l = (exTreeTrue.get ⟨i, h⟩).g_l
        ∧ ((computeC Complex.ofRealHom Complex.re
              (computeG exTreeFresh exZ) [(1 : ℂ)] exZf).get
            ⟨i, h'⟩).g_c = (exTreeTrue.get ⟨i, h⟩).g_c
        ∧ ((computeC Complex.ofRealHom Complex.re
              (computeG exTreeFresh exZ) [(1 : ℂ)] exZf).get
            ⟨i, h'⟩).ca = (exTreeTrue.get ⟨i, h⟩).ca := by
  constructor
  · refine ⟨?_, ?_, ?_, ?_⟩ <;>
      (rw [calcConductanceMatrix_apply]
       simp [exTreeTrue, gContrib]
       try norm_num)
  · refine fit_roundtrip_exact exTreeTrue exTreeFresh exTreeTrue_canonical
      exTreeFresh_canonical exTopology ?_ ?_ ?_ ?_ ?_ exZ exZ_inverse
      [(1 : ℂ)] exZf ?_ ?_
    · intro node hnode
      simp [exTreeTrue] at hnode
      rcases hnode with rfl | rfl <;> norm_num
    · intro node hnode
      simp [exTreeTrue] at hnode
      rcases hnode with rfl | rfl <;> norm_num
    · intro node hnode hne
      simp [exTreeTrue] at hnode
      rcases hnode with rfl | rfl
      · exact absurd rfl hne
      · norm_num
    · intro node hnode hpar
      simp [exTreeTrue] at hnode
      rcases hnode with rfl | rfl
      · rfl
      · simp at hpar
    · intro node hnode hpar
      simp [exTreeFresh] at hnode
      rcases hnode with rfl | rfl
      · rfl
      · simp at hpar
    · intro f
      fin_cases f
      exact exZf_inverse
    · exact ⟨⟨0, one_pos⟩, by norm_num⟩

